import Mathlib

/-!
Verification model of the `memfs` in-memory filesystem (`src/memfs.rs`,
`src/utils.rs`).  The Rust sources use shared mutable `Arc` nodes; this shallow
embedding replaces pointer sharing by an explicit heap: directory and file
nodes live in association lists keyed by numeric ids, and `Arc` references
become ids.  Machine integers (`usize`) are modelled as `Nat`; `saturating_add`
needs no special treatment because `Nat` never overflows and every saturating
result in the source is immediately clamped by a `min` against a small bound,
and `saturating_sub` is ordinary `Nat` subtraction.  `Vec<u8>` buffers are
`List Nat`.  Error values keep only their `MemFSErrType` kind; the human
readable message strings of `MemFSErr` carry no information used anywhere.
-/

namespace MemFS

/-- Modelled from the spec: `FILE_MAX_SIZE` is a compile-time constant
("maximum bytes per file", spec section 6) imported by `memfs.rs` from
`crate::utils` but absent from the provided `src/utils.rs`.  Its numeric value
is not fixed by the spec; a small concrete value is chosen so that states are
executable.  No theorem below depends on the particular value. -/
def FILE_MAX_SIZE : Nat := 16

/-- Modelled from the spec: `NUMBER_OF_MAXIMUM_FILES` is a compile-time
constant ("upper bound on live files at any moment", spec section 6) imported
by `memfs.rs` but absent from the provided `src/utils.rs`.  Value chosen small
for executability; no theorem depends on it. -/
def NUMBER_OF_MAXIMUM_FILES : Nat := 4

/-! ## OpenFlag (`src/utils.rs`)

`OpenFlag` is a `bitflags` wrapper around a `u32`; we model the flag value as
the raw `Nat` bit pattern.  Bits `O_RDONLY .. O_EXCL` come from
`src/utils.rs`; `O_APPEND` is used throughout `memfs.rs` and the tests and is
listed by the spec (section 4.1) but its bit is not in the provided
`src/utils.rs`, so its value is modelled (any unused bit works). -/

def O_RDONLY : Nat := 1
def O_WRONLY : Nat := 2
def O_RDWR : Nat := 4
def O_CREAT : Nat := 8
def O_EXCL : Nat := 16

/-- Modelled from the spec: the `O_APPEND` bit (spec section 4.1); absent from
the provided `src/utils.rs`, assigned the next free bit. -/
def O_APPEND : Nat := 32

/-- Union of all defined flag bits; `bitflags` complement (`!flag`) keeps only
defined bits, i.e. `!f = flagAll ^^^ (f &&& flagAll)`. -/
def flagAll : Nat := 63

/-- bitflags `contains`: all bits of `g` are present in `f`. -/
def containsF (f g : Nat) : Bool := f &&& g == g

/-- bitflags complement-and-mask: `f & !(g)`. -/
def withoutF (f g : Nat) : Nat := f &&& (flagAll ^^^ (g &&& flagAll))

/-- Number of one bits, as `u32::count_ones` (flag values are `u32`, so the
32 bit positions cover every value). -/
def countOnes (n : Nat) : Nat :=
  ((List.range 32).filter (fun i => n.testBit i)).length

/-- `OpenFlag::check_mode_exclusiveness`: exactly one of the three access-mode
bits is set. -/
def check_mode_exclusiveness (f : Nat) : Bool :=
  countOnes (f &&& (O_RDONLY ||| O_RDWR ||| O_WRONLY)) == 1

/-- `SeekFlag` from `src/utils.rs`. -/
inductive SeekFlag where
  | SEEK_CUR
  | SEEK_END
  | SEEK_SET
deriving DecidableEq, Repr

/-- Error kinds of `MemFSErrType` from `src/utils.rs`.  The kinds `EBUSY`,
`EFBIG` and `ENOMEM` are modelled from the spec (section 7): `memfs.rs` calls
constructors `busy()`, `file_too_large()` and `out_of_memory()` that are not
in the provided `src/utils.rs`, and the spec maps them to these kinds. -/
inductive Err where
  | PoisonedLock
  | ENOENT
  | EEXIST
  | EBADF
  | EISDIR
  | ENOTDIR
  | EFAULT
  | EINVAL
  | ENOTEMPTY
  | EBUSY
  | EFBIG
  | ENOMEM
  | Misc
deriving DecidableEq, Repr

/-! ## Association-list maps

`HashMap` / `DashMap` / papaya maps are modelled as association lists with
unique keys (insert replaces the binding of an existing key; lookup takes the
first binding; erase removes the binding of the key). -/

def lookupA {κ α : Type} [DecidableEq κ] : List (κ × α) → κ → Option α
  | [], _ => none
  | (k, v) :: ps, k' => if k' = k then some v else lookupA ps k'

def insertA {κ α : Type} [DecidableEq κ] : List (κ × α) → κ → α → List (κ × α)
  | [], k, v => [(k, v)]
  | (k0, v0) :: ps, k, v =>
    if k = k0 then (k, v) :: ps else (k0, v0) :: insertA ps k v

def eraseA {κ α : Type} [DecidableEq κ] : List (κ × α) → κ → List (κ × α)
  | [], _ => []
  | (k0, v0) :: ps, k => if k = k0 then ps else (k0, v0) :: eraseA ps k

/-- Keys of an association list are pairwise distinct (holds for every map the
filesystem builds, since all mutations go through `insertA`/`eraseA`). -/
def keysNodup {κ α : Type} (m : List (κ × α)) : Prop :=
  (m.map Prod.fst).Nodup

/-! ## Data model

`MemFSEntry` values stored in children maps and descriptors are `Arc`
references; here they are ids into the `files` / `dirs` heaps.  The
`ResolvedAsRoot` variant is the resolver's sentinel, as in the source. -/

/-- A reference to a `MemFSEntry` (an `Arc<MemFSEntry>` in the source). -/
inductive EntryRef where
  | file (id : Nat)
  | dir (id : Nat)
  | rootSentinel
deriving DecidableEq, Repr

/-- `MemFSFileNode`: atomic logical size plus the data buffer (a pool buffer
of physical length `FILE_MAX_SIZE`). -/
structure FileNode where
  size : Nat
  data : List Nat
deriving DecidableEq, Repr

/-- `MemFSDirNode`: weak parent back-reference (a dir id; `none` for the
root) and the children map. -/
structure DirNode where
  parent : Option Nat
  children : List (String × EntryRef)
deriving DecidableEq, Repr

/-- `MemFSFileDescriptor`: open flags (with `O_CREAT` masked off at creation),
the atomic `file_offset`, and the target entry reference.  The `_number` field
and the per-descriptor `append_mutex` have no sequential content. -/
structure Desc where
  flag : Nat
  file_offset : Nat
  entry : EntryRef
deriving DecidableEq, Repr

/-- The whole-filesystem state: the node heaps, the root id, the
current-working-directory reference, the descriptor table with its atomic
counter, the remaining buffer count of the `FileMemoryPool`, and a fresh-id
counter standing in for `Arc` allocation. -/
structure FS where
  files : List (Nat × FileNode)
  dirs : List (Nat × DirNode)
  rootId : Nat
  cwdRef : EntryRef
  fds : List (Nat × Desc)
  fdCount : Nat
  pool : Nat
  nextId : Nat
deriving DecidableEq, Repr

/-- `MemFS::new()`: a root directory, an empty descriptor table, and a full
pool of `NUMBER_OF_MAXIMUM_FILES` zeroed buffers. -/
def initFS : FS :=
  { files := []
    dirs := [(0, { parent := none, children := [] })]
    rootId := 0
    cwdRef := .dir 0
    fds := []
    fdCount := 0
    pool := NUMBER_OF_MAXIMUM_FILES
    nextId := 1 }

/-! ## Path handling (`MemFS` private helpers) -/

/-- `str::trim_end_matches('/')`. -/
def trimEndSlashes (s : String) : String :=
  String.mk ((s.data.reverse.dropWhile (fun c => c == '/')).reverse)

/-- Helper for `splitOnSlash`, structurally recursive over the characters. -/
def splitSlashAux : List Char → List Char → List (List Char)
  | [], acc => [acc.reverse]
  | c :: cs, acc =>
    if c = '/' then acc.reverse :: splitSlashAux cs []
    else splitSlashAux cs (c :: acc)

/-- `str::split('/')`: the `/`-separated pieces, keeping empty pieces (so
`""` yields `[""]` and `"/"` yields `["", ""]`), exactly as Rust's `split`.
(Defined by structural recursion rather than `String.splitOn` so that it
reduces inside the kernel.) -/
def splitOnSlash (s : String) : List String :=
  (splitSlashAux s.data []).map String.mk

/-- `MemFS::path_str_to_iter`: split on `/`, dropping empty and `"."`
components; empty input is `ENOENT`. -/
def path_str_to_iter (path : String) : Except Err (List String) :=
  if path = "" then .error .ENOENT
  else .ok ((splitOnSlash path).filter (fun x => x != "" && x != "."))

/-- `MemFS::path_str_to_iter_and_without_last_component`: as above, then
`Vec::pop` drops the final component. -/
def path_str_to_iter_and_without_last_component (path : String) :
    Except Err (List String) :=
  if path = "" then .error .ENOENT
  else .ok (((splitOnSlash path).filter (fun x => x != "" && x != ".")).dropLast)

/-- `MemFS::is_absolute_path`: first character is `/` (callers guarantee the
path is nonempty; the source `unwrap`s). -/
def is_absolute_path (path : String) : Bool :=
  path.data.head? == some '/'

/-- `MemFS::get_last_component_of_path`: last `/`-separated piece after
trimming trailing slashes (`split` never yields an empty list, so the
`ENOENT` branch is dead in the source as well). -/
def get_last_component_of_path (path : String) : Except Err String :=
  match (splitOnSlash (trimEndSlashes path)).getLast? with
  | some s => .ok s
  | none => .error .ENOENT

/-- `MemFSDirNode::search_entry_with_path` (fine-grained / lock-free variant;
the coarse variant differs only in lock plumbing).  `dirs` is the directory
heap, `i` the id of `self`, `c` the component taken by `iter.next()` and
`rest` the remaining components.  A dangling parent weak-reference surfaces
as `ENOENT`, as `upgrade` failure does in the source. -/
def search_entry_with_path (dirs : List (Nat × DirNode)) (i : Nat)
    (c : String) (rest : List String) : Except Err EntryRef :=
  match lookupA dirs i with
  | none => .error .ENOENT
  | some d =>
    match rest with
    | r :: rs =>
      match lookupA d.children c with
      | some v =>
        match v with
        | .dir j => search_entry_with_path dirs j r rs
        | .file _ => .error .ENOTDIR
        | .rootSentinel => .error .ENOENT
      | none =>
        if c = ".." then
          match d.parent with
          | some pid => search_entry_with_path dirs pid r rs
          | none => search_entry_with_path dirs i r rs
        else .error .ENOENT
    | [] =>
      match lookupA d.children c with
      | some v => .ok v
      | none =>
        if c = ".." then
          match d.parent with
          | some pid =>
            if (lookupA dirs pid).isSome then .ok (.dir pid)
            else .error .ENOENT
          | none => .ok .rootSentinel
        else .error .ENOENT

/-- `MemFS::get_node_of_given_path` (fine-grained / lock-free).  Resolution
reads only the directory heap, the root id and the cwd reference, so those are
the parameters. -/
def get_node_of_given_path (dirs : List (Nat × DirNode)) (rootId : Nat)
    (cwdRef : EntryRef) (path : String) : Except Err EntryRef :=
  if path = "" then .error .ENOENT
  else
    match path_str_to_iter path with
    | .error e => .error e
    | .ok comps =>
      match comps with
      | [] => if is_absolute_path path then .ok (.dir rootId) else .ok cwdRef
      | c :: rest =>
        let start := if is_absolute_path path then EntryRef.dir rootId else cwdRef
        match start with
        | .dir i => search_entry_with_path dirs i c rest
        | .file _ => .error .ENOENT
        | .rootSentinel => .ok (.dir rootId)

/-- `MemFS::get_parent_directory_node_of_given_path` (fine-grained /
lock-free): as `get_node_of_given_path` but the last component is dropped. -/
def get_parent_directory_node_of_given_path (dirs : List (Nat × DirNode))
    (rootId : Nat) (cwdRef : EntryRef) (path : String) : Except Err EntryRef :=
  if path = "" then .error .ENOENT
  else
    match path_str_to_iter_and_without_last_component path with
    | .error e => .error e
    | .ok comps =>
      match comps with
      | [] => if is_absolute_path path then .ok (.dir rootId) else .ok cwdRef
      | c :: rest =>
        let start := if is_absolute_path path then EntryRef.dir rootId else cwdRef
        match start with
        | .dir i => search_entry_with_path dirs i c rest
        | .file _ => .error .ENOENT
        | .rootSentinel => .ok (.dir rootId)

/-! ## Building blocks shared by the descriptor operations -/

/-- `slice[start .. start + bytes.length].copy_from_slice(bytes)` on a list.
(The Rust code can only reach this with `start + bytes.length ≤ data.length`,
where the result keeps the buffer length.) -/
def writeRange (data : List Nat) (start : Nat) (bytes : List Nat) : List Nat :=
  data.take start ++ bytes ++ data.drop (start + bytes.length)

/-- One atomic store `file.size.store(n)` on the file heap. -/
def setFileSize (fs : FS) (fid n : Nat) : FS :=
  match lookupA fs.files fid with
  | some f => { fs with files := insertA fs.files fid { f with size := n } }
  | none => fs

/-- One atomic `file.size.fetch_max(n)` on the file heap. -/
def maxFileSize (fs : FS) (fid n : Nat) : FS :=
  match lookupA fs.files fid with
  | some f => { fs with files := insertA fs.files fid { f with size := max f.size n } }
  | none => fs

/-- The (non-atomic) `copy_from_slice` into `data[start .. start+|bytes|]`. -/
def copyFileData (fs : FS) (fid start : Nat) (bytes : List Nat) : FS :=
  match lookupA fs.files fid with
  | some f => { fs with files := insertA fs.files fid { f with data := writeRange f.data start bytes } }
  | none => fs

/-- One atomic store `self.file_offset.store(n)` on the descriptor table. -/
def setFdOffset (fs : FS) (fd n : Nat) : FS :=
  match lookupA fs.fds fd with
  | some d => { fs with fds := insertA fs.fds fd { d with file_offset := n } }
  | none => fs

/-! ## Descriptor operations (`MemFSFileDescriptor`)

The fine-grained and coarse-grained bodies of `read_file`, `write_file` and
`seek_file` are textually identical apart from lock plumbing (the coarse
variant takes an `RwLock` read guard first); one definition models both,
except where noted (`seek_file` error kind on a non-file target). -/

/-- `MemFSFileDescriptor::read_file`.  The caller's `&mut Vec<u8>` buffer is
modelled by its length `bufLen`; on success the result carries the returned
count together with the bytes copied into the buffer. -/
def read_file (fs : FS) (fd : Nat) (d : Desc) (bufLen size : Nat) :
    Except Err (Nat × List Nat) × FS :=
  if containsF d.flag O_WRONLY then (.error .EBADF, fs)
  else
    match d.entry with
    | .file fid =>
      match lookupA fs.files fid with
      | some f =>
        let current_offset := d.file_offset
        let file_size := f.size
        let reading_length := min (current_offset + size) file_size - current_offset
        let slice_from_file := (f.data.drop current_offset).take reading_length
        if bufLen < reading_length then (.error .EFAULT, fs)
        else
          (.ok (slice_from_file.length, slice_from_file),
           { fs with fds := insertA fs.fds fd { d with file_offset := d.file_offset + reading_length } })
      | none => (.error .ENOENT, fs)
    | _ => (.error .ENOENT, fs)

/-- `MemFSFileDescriptor::write_file`.  The `O_APPEND` branch is written as
the composition of its three successive shared-memory mutations in source
order — the `size` store (release) comes FIRST, then the byte copy, then the
descriptor `file_offset` store — so that intermediate states of the append
are denotable.  The non-append branch composes `fetch_max`, copy, offset
store, also in source order. -/
def write_file (fs : FS) (fd : Nat) (d : Desc) (buffer : List Nat) (size : Nat) :
    Except Err Nat × FS :=
  if containsF d.flag O_RDONLY then (.error .EBADF, fs)
  else
    match d.entry with
    | .file fid =>
      match lookupA fs.files fid with
      | some f =>
        if containsF d.flag O_APPEND then
          let current_offset := f.size
          let writing_content_size := min size buffer.length
          let expected_offset := current_offset + writing_content_size
          if FILE_MAX_SIZE < expected_offset then (.error .EFBIG, fs)
          else
            (.ok writing_content_size,
             setFdOffset
               (copyFileData (setFileSize fs fid expected_offset)
                 fid current_offset (buffer.take writing_content_size))
               fd expected_offset)
        else
          let current_offset := d.file_offset
          let writing_content_size := min size buffer.length
          let expected_offset := current_offset + writing_content_size
          if FILE_MAX_SIZE < expected_offset then (.error .EFBIG, fs)
          else
            (.ok writing_content_size,
             setFdOffset
               (copyFileData (maxFileSize fs fid expected_offset)
                 fid current_offset (buffer.take writing_content_size))
               fd expected_offset)
      | none => (.error .ENOENT, fs)
    | _ => (.error .ENOENT, fs)

/-- `MemFSFileDescriptor::seek_file` (fine-grained / lock-free variant, which
returns `EISDIR` on a non-file target; the coarse variant returns `ENOENT`
there and is otherwise identical). -/
def seek_file (fs : FS) (fd : Nat) (d : Desc) (seek_position : Nat)
    (flag : SeekFlag) : Except Err Nat × FS :=
  let current_offset := d.file_offset
  match d.entry with
  | .file fid =>
    match lookupA fs.files fid with
    | some f =>
      let maximum_offset := f.size
      let additional_offset :=
        match flag with
        | .SEEK_CUR => current_offset
        | .SEEK_END => maximum_offset
        | .SEEK_SET => 0
      let final_offset := min maximum_offset (additional_offset + seek_position)
      (.ok final_offset,
       { fs with fds := insertA fs.fds fd { d with file_offset := final_offset } })
    | none => (.error .EISDIR, fs)
  | _ => (.error .EISDIR, fs)

/-! ## Filesystem facade: descriptor-table dispatch -/

/-- `MemFS::read`. -/
def readOp (fs : FS) (fd : Nat) (bufLen size : Nat) :
    Except Err (Nat × List Nat) × FS :=
  match lookupA fs.fds fd with
  | some d => read_file fs fd d bufLen size
  | none => (.error .EBADF, fs)

/-- `MemFS::write`. -/
def writeOp (fs : FS) (fd : Nat) (buffer : List Nat) (size : Nat) :
    Except Err Nat × FS :=
  match lookupA fs.fds fd with
  | some d => write_file fs fd d buffer size
  | none => (.error .EBADF, fs)

/-- `MemFS::lseek`. -/
def seekOp (fs : FS) (fd : Nat) (offset : Nat) (flag : SeekFlag) :
    Except Err Nat × FS :=
  match lookupA fs.fds fd with
  | some d => seek_file fs fd d offset flag
  | none => (.error .EBADF, fs)

/-- `MemFS::close` (fine-grained / lock-free; the coarse variant is the same
contains-then-remove). -/
def closeOp (fs : FS) (fd : Nat) : Except Err Unit × FS :=
  match lookupA fs.fds fd with
  | some _ => (.ok (), { fs with fds := eraseA fs.fds fd })
  | none => (.error .EBADF, fs)

/-! ## Namespace operations (fine-grained variant) -/

/-- `MemFS::resolve_dir_and_entry` restricted to locating the directory whose
children map is transacted on: a `Directory` uses its own map, the
`ResolvedAsRoot` sentinel is re-mapped to the root (always a directory), and
a `File` parent is `ENOTDIR`. -/
def resolve_dir_and_entry_id (rootId : Nat) (ref : EntryRef) : Except Err Nat :=
  match ref with
  | .dir i => .ok i
  | .rootSentinel => .ok rootId
  | .file _ => .error .ENOTDIR

/-- `MemFS::open` (fine-grained variant).  The whole children-map transaction
(`DashMap::entry` … insert) happens under the shard lock, hence as one atomic
step here. -/
def openFine (fs : FS) (path : String) (flag : Nat) : Except Err Nat × FS :=
  if !(check_mode_exclusiveness flag) then (.error .EINVAL, fs)
  else
    match get_parent_directory_node_of_given_path fs.dirs fs.rootId fs.cwdRef path with
    | .error e => (.error e, fs)
    | .ok pref =>
      match get_last_component_of_path path with
      | .error e => (.error e, fs)
      | .ok last =>
        match resolve_dir_and_entry_id fs.rootId pref with
        | .error e => (.error e, fs)
        | .ok did =>
          match lookupA fs.dirs did with
          | none => (.error .ENOENT, fs)
          | some d =>
            match lookupA d.children last with
            | none =>
              if containsF flag O_CREAT then
                if fs.pool = 0 then (.error .ENOMEM, fs)
                else
                  let fid := fs.nextId
                  let fd := fs.fdCount
                  (.ok fd,
                   { fs with
                     pool := fs.pool - 1
                     nextId := fs.nextId + 1
                     files := insertA fs.files fid { size := 0, data := List.replicate FILE_MAX_SIZE 0 }
                     dirs := insertA fs.dirs did { d with children := insertA d.children last (.file fid) }
                     fds := insertA fs.fds fd { flag := withoutF flag O_CREAT, file_offset := 0, entry := .file fid }
                     fdCount := fs.fdCount + 1 })
              else (.error .ENOENT, fs)
            | some v =>
              if containsF flag (O_CREAT ||| O_EXCL) then (.error .EEXIST, fs)
              else
                match v with
                | .file fid =>
                  let fd := fs.fdCount
                  (.ok fd,
                   { fs with
                     fds := insertA fs.fds fd { flag := withoutF flag O_CREAT, file_offset := 0, entry := .file fid }
                     fdCount := fs.fdCount + 1 })
                | _ => (.error .EISDIR, fs)

/-- `MemFSDirNode::remove_file` (fine-grained) wrapped with the heap. -/
def remove_file (fs : FS) (did : Nat) (name : String) : Except Err Unit × FS :=
  match lookupA fs.dirs did with
  | none => (.error .ENOENT, fs)
  | some d =>
    match lookupA d.children name with
    | some v =>
      match v with
      | .file _ =>
        (.ok (), { fs with dirs := insertA fs.dirs did { d with children := eraseA d.children name } })
      | _ => (.error .EISDIR, fs)
    | none => (.error .ENOENT, fs)

/-- `MemFS::unlink` (fine-grained / lock-free). -/
def unlinkOp (fs : FS) (path : String) : Except Err Unit × FS :=
  match get_parent_directory_node_of_given_path fs.dirs fs.rootId fs.cwdRef path with
  | .error e => (.error e, fs)
  | .ok pref =>
    match get_last_component_of_path path with
    | .error e => (.error e, fs)
    | .ok last =>
      match pref with
      | .dir i => remove_file fs i last
      | .file _ => (.error .ENOENT, fs)
      | .rootSentinel => remove_file fs fs.rootId last

/-- `MemFSDirNode::create_new_directory` (fine-grained) wrapped with the
heap; `parent_ptr` is the id of the parent node that is downgraded to the
weak back-reference. -/
def create_new_directory (fs : FS) (did : Nat) (name : String) : Except Err Unit × FS :=
  match lookupA fs.dirs did with
  | none => (.error .ENOENT, fs)
  | some d =>
    match lookupA d.children name with
    | some _ => (.error .EEXIST, fs)
    | none =>
      let nid := fs.nextId
      (.ok (),
       { fs with
         nextId := fs.nextId + 1
         dirs := insertA (insertA fs.dirs did { d with children := insertA d.children name (.dir nid) })
                   nid { parent := some did, children := [] } })

/-- `MemFS::mkdir` (fine-grained / lock-free). -/
def mkdirOp (fs : FS) (path : String) : Except Err Unit × FS :=
  if path = "/" then (.error .EEXIST, fs)
  else
    match get_parent_directory_node_of_given_path fs.dirs fs.rootId fs.cwdRef path with
    | .error e => (.error e, fs)
    | .ok pref =>
      match get_last_component_of_path path with
      | .error e => (.error e, fs)
      | .ok last =>
        if last = "." ∨ last = ".." then (.error .EEXIST, fs)
        else
          match pref with
          | .dir i => create_new_directory fs i last
          | .file _ => (.error .ENOENT, fs)
          | .rootSentinel => (.error .EEXIST, fs)

/-- `MemFSDirNode::remove_directory` (fine-grained) wrapped with the heap. -/
def remove_directory (fs : FS) (did : Nat) (name : String) : Except Err Unit × FS :=
  match lookupA fs.dirs did with
  | none => (.error .ENOENT, fs)
  | some d =>
    match lookupA d.children name with
    | some v =>
      match v with
      | .dir j =>
        match lookupA fs.dirs j with
        | some dj =>
          if dj.children.isEmpty then
            (.ok (), { fs with dirs := insertA fs.dirs did { d with children := eraseA d.children name } })
          else (.error .ENOTEMPTY, fs)
        | none => (.error .ENOENT, fs)
      | _ => (.error .ENOTDIR, fs)
    | none => (.error .ENOENT, fs)

/-- `MemFS::rmdir` (fine-grained / lock-free). -/
def rmdirOp (fs : FS) (path : String) : Except Err Unit × FS :=
  if path = "/" then (.error .EBUSY, fs)
  else
    match get_parent_directory_node_of_given_path fs.dirs fs.rootId fs.cwdRef path with
    | .error e => (.error e, fs)
    | .ok pref =>
      match get_last_component_of_path path with
      | .error e => (.error e, fs)
      | .ok last =>
        if last = "." then (.error .EINVAL, fs)
        else if last = ".." then (.error .ENOTEMPTY, fs)
        else
          match pref with
          | .dir i => remove_directory fs i last
          | .file _ => (.error .ENOENT, fs)
          | .rootSentinel => (.error .EBUSY, fs)

/-- `MemFS::chdir` (fine-grained / lock-free). -/
def chdirOp (fs : FS) (path : String) : Except Err Unit × FS :=
  if path = "" then (.error .ENOENT, fs)
  else if path = "/" then (.ok (), { fs with cwdRef := .dir fs.rootId })
  else
    match get_node_of_given_path fs.dirs fs.rootId fs.cwdRef path with
    | .error e => (.error e, fs)
    | .ok r =>
      match r with
      | .dir i => (.ok (), { fs with cwdRef := .dir i })
      | .rootSentinel => (.ok (), { fs with cwdRef := .dir fs.rootId })
      | .file _ => (.error .ENOTDIR, fs)

/-! ## Coarse-grained `open` (`MemFS::open` / `MemFS::create` /
`MemFSDirNode::create_new_file`)

The decisive difference to the fine-grained variant: with `O_CREAT` set, the
coarse path pops a pool buffer *before* looking at the directory
(`self.create(path, O_EXCL & flag, self.allocate_file_memory()?)`), and when
the name already exists the popped buffer is dropped without ever being
pushed back to the queue. -/

/-- `MemFSDirNode::create_new_file` (coarse): insert-if-absent; when the name
is present, `EEXIST` only if `O_EXCL` is in the passed (already masked) flag,
otherwise a successful no-op.  The popped pool buffer `space` that the caller
already holds becomes the new file's data on insert and is silently dropped
otherwise; the caller's pool decrement is never undone. -/
def create_new_file (fs : FS) (did : Nat) (name : String) (flagExcl : Nat) :
    Except Err Unit × FS :=
  match lookupA fs.dirs did with
  | none => (.error .ENOENT, fs)
  | some d =>
    match lookupA d.children name with
    | none =>
      let fid := fs.nextId
      (.ok (),
       { fs with
         nextId := fs.nextId + 1
         files := insertA fs.files fid { size := 0, data := List.replicate FILE_MAX_SIZE 0 }
         dirs := insertA fs.dirs did { d with children := insertA d.children name (.file fid) } })
    | some _ =>
      if containsF flagExcl O_EXCL then (.error .EEXIST, fs) else (.ok (), fs)

/-- `MemFS::create` (coarse-grained only). -/
def createCoarse (fs : FS) (path : String) (flagExcl : Nat) : Except Err Unit × FS :=
  match get_parent_directory_node_of_given_path fs.dirs fs.rootId fs.cwdRef path with
  | .error e => (.error e, fs)
  | .ok pref =>
    match get_last_component_of_path path with
    | .error e => (.error e, fs)
    | .ok last =>
      match pref with
      | .dir i => create_new_file fs i last flagExcl
      | .file _ => (.error .ENOENT, fs)
      | .rootSentinel => (.error .EISDIR, fs)

/-- `MemFS::open` (coarse-grained variant).  `allocate_file_memory` is the
pool pop (`ENOMEM` when empty); on any later failure the popped buffer is
dropped, leaving the pool smaller. -/
def openCoarse (fs : FS) (path : String) (flag : Nat) : Except Err Nat × FS :=
  if !(check_mode_exclusiveness flag) then (.error .EINVAL, fs)
  else
    match (if containsF flag O_CREAT then
             if fs.pool = 0 then (Except.error Err.ENOMEM, fs)
             else createCoarse { fs with pool := fs.pool - 1 } path (O_EXCL &&& flag)
           else (.ok (), fs)) with
    | (.error e, fs1) => (.error e, fs1)
    | (.ok _, fs1) =>
      match get_node_of_given_path fs1.dirs fs1.rootId fs1.cwdRef path with
      | .error e => (.error e, fs1)
      | .ok nref =>
        match nref with
        | .file fid =>
          let fd := fs1.fdCount
          (.ok fd,
           { fs1 with
             fds := insertA fs1.fds fd { flag := withoutF flag O_CREAT, file_offset := 0, entry := .file fid }
             fdCount := fs1.fdCount + 1 })
        | _ => (.error .EISDIR, fs1)

/-! ## Lock-free `open`, decomposed into its atomic phases

In the lock-free variant (`MemFS::open` under `feature = "lock-free"`), the
existence check `parent_pin.get(last_elem)` and the later
`parent_pin.insert(...)` are two separate atomic operations on the papaya
map, with only thread-local work between them — there is no `try_insert`
(unlike the lock-free `create_new_directory`, which uses
`try_insert_with`).  Concurrent executions may therefore interleave between
the check and the insert. -/

/-- Result of the atomic `parent_pin.get(last_elem)` phase. -/
inductive LFCheck where
  | found (v : EntryRef)
  | vacant
deriving DecidableEq, Repr

/-- Phase 1 of the lock-free `open`: flag validation, parent resolution,
`resolve_open_dir`, and the atomic `get`.  No shared state is mutated. -/
def lfOpenCheck (fs : FS) (path : String) (flag : Nat) : Except Err LFCheck :=
  if !(check_mode_exclusiveness flag) then .error .EINVAL
  else
    match get_parent_directory_node_of_given_path fs.dirs fs.rootId fs.cwdRef path with
    | .error e => .error e
    | .ok pref =>
      match get_last_component_of_path path with
      | .error e => .error e
      | .ok last =>
        match resolve_dir_and_entry_id fs.rootId pref with
        | .error e => .error e
        | .ok did =>
          match lookupA fs.dirs did with
          | none => .error .ENOENT
          | some d =>
            match lookupA d.children last with
            | some v => .ok (.found v)
            | none => .ok .vacant

/-- Phase 2 of the lock-free `open` when phase 1 saw `vacant`: the `None`
branch — pool pop, fresh descriptor id, then the plain (overwriting)
`parent_pin.insert` and the descriptor-table insert, executed against the
*current* state, which other threads may have changed since phase 1. -/
def lfOpenVacantContinue (fs : FS) (did : Nat) (last : String) (flag : Nat) :
    Except Err Nat × FS :=
  if containsF flag O_CREAT then
    if fs.pool = 0 then (.error .ENOMEM, fs)
    else
      match lookupA fs.dirs did with
      | none => (.error .ENOENT, fs)
      | some d =>
        let fid := fs.nextId
        let fd := fs.fdCount
        (.ok fd,
         { fs with
           pool := fs.pool - 1
           nextId := fs.nextId + 1
           files := insertA fs.files fid { size := 0, data := List.replicate FILE_MAX_SIZE 0 }
           dirs := insertA fs.dirs did { d with children := insertA d.children last (.file fid) }
           fds := insertA fs.fds fd { flag := withoutF flag O_CREAT, file_offset := 0, entry := .file fid }
           fdCount := fs.fdCount + 1 })
  else (.error .ENOENT, fs)

/-! ## Public-operation step relation (for reachable-state invariants) -/

/-- One public operation of the facade (fine-grained variant; the coarse
`open` is included as well since both mutate the same state model). -/
inductive Op where
  | opOpen (path : String) (flag : Nat)
  | opOpenCoarse (path : String) (flag : Nat)
  | opClose (fd : Nat)
  | opUnlink (path : String)
  | opMkdir (path : String)
  | opRmdir (path : String)
  | opChdir (path : String)
  | opRead (fd bufLen size : Nat)
  | opWrite (fd : Nat) (buffer : List Nat) (size : Nat)
  | opSeek (fd : Nat) (offset : Nat) (flag : SeekFlag)

/-- State transition of one public operation (the returned value is
irrelevant to state invariants). -/
def applyOp (fs : FS) : Op → FS
  | .opOpen p fl => (openFine fs p fl).2
  | .opOpenCoarse p fl => (openCoarse fs p fl).2
  | .opClose fd => (closeOp fs fd).2
  | .opUnlink p => (unlinkOp fs p).2
  | .opMkdir p => (mkdirOp fs p).2
  | .opRmdir p => (rmdirOp fs p).2
  | .opChdir p => (chdirOp fs p).2
  | .opRead fd b s => (readOp fs fd b s).2
  | .opWrite fd buf s => (writeOp fs fd buf s).2
  | .opSeek fd off fl => (seekOp fs fd off fl).2

/-- The state after running a sequence of public operations from a fresh
filesystem. -/
def run (ops : List Op) : FS :=
  ops.foldl applyOp initFS

/-! ## Concrete example states shared by the witnesses -/

/-- Flags `O_CREAT | O_RDWR`. -/
def modeCRW : Nat := O_CREAT ||| O_RDWR

/-- A filesystem with one file `/a` opened read-write as descriptor 0. -/
def exFS : FS := (openFine initFS "/a" modeCRW).2

/-- `exFS` after writing the bytes `[1,2,3,4]` through descriptor 0. -/
def exFS4 : FS := (writeOp exFS 0 [1, 2, 3, 4] 4).2

/-- `exFS4` after seeking descriptor 0 back to offset 0. -/
def exFS4s : FS := (seekOp exFS4 0 0 .SEEK_SET).2

/-- The descriptor stored at fd 0 in `exFS4s`. -/
def descA : Desc := { flag := O_RDWR, file_offset := 0, entry := .file 1 }

/-- The file node stored at id 1 in `exFS4s`. -/
def fileA : FileNode := { size := 4, data := [1, 2, 3, 4] ++ List.replicate 12 0 }

/-! ## C2: read semantics -/

/-- C2.  For every readable descriptor with offset `O` on a file of size `S`
(within the physical buffer), `read` copies exactly
`effective = min (O + size) S - O` bytes of the file data starting at `O`
into the caller's buffer, advances the offset by `effective` and returns
`effective` (0, not an error, when `O ≥ S`); it returns `EFAULT` exactly when
the caller's buffer holds fewer than `effective` bytes, leaving the state
unchanged. -/
theorem read_file_semantics (fs : FS) (fd : Nat) (d : Desc) (fid : Nat)
    (f : FileNode) (bufLen size : Nat)
    (hd : lookupA fs.fds fd = some d)
    (hread : containsF d.flag O_WRONLY = false)
    (he : d.entry = .file fid)
    (hf : lookupA fs.files fid = some f)
    (hOS : d.file_offset ≤ f.size)
    (hSL : f.size ≤ f.data.length) :
    (bufLen < min (d.file_offset + size) f.size - d.file_offset →
       readOp fs fd bufLen size = (.error .EFAULT, fs)) ∧
    (min (d.file_offset + size) f.size - d.file_offset ≤ bufLen →
       readOp fs fd bufLen size =
         (.ok (min (d.file_offset + size) f.size - d.file_offset,
               (f.data.drop d.file_offset).take
                 (min (d.file_offset + size) f.size - d.file_offset)),
          { fs with
            fds := insertA fs.fds fd
              { d with file_offset :=
                  d.file_offset + (min (d.file_offset + size) f.size - d.file_offset) } }) ∧
       ((f.data.drop d.file_offset).take
           (min (d.file_offset + size) f.size - d.file_offset)).length =
         min (d.file_offset + size) f.size - d.file_offset) ∧
    (f.size ≤ d.file_offset →
       min (d.file_offset + size) f.size - d.file_offset = 0) := by
  have hmin : min (d.file_offset + size) f.size ≤ f.size := Nat.min_le_right _ _
  have hlen : ((f.data.drop d.file_offset).take
      (min (d.file_offset + size) f.size - d.file_offset)).length =
      min (d.file_offset + size) f.size - d.file_offset := by
    rw [List.length_take, List.length_drop]
    omega
  refine ⟨?_, ?_, ?_⟩
  · intro hb
    simp only [readOp, hd, read_file, hread, Bool.false_eq_true, if_false, he, hf]
    rw [if_pos hb]
  · intro hb
    simp only [readOp, hd, read_file, hread, Bool.false_eq_true, if_false, he, hf]
    rw [if_neg (by omega)]
    exact ⟨by rw [hlen], hlen⟩
  · intro hb
    omega

/-- Witness for C2 on the concrete state `exFS4s`: descriptor 0 sits at
offset 0 of the 4-byte file `/a`, and a read of 2 bytes into a 4-byte buffer
returns the first two written bytes. -/
theorem read_file_semantics_witness :
    (lookupA exFS4s.fds 0 = some descA ∧
     containsF descA.flag O_WRONLY = false ∧
     descA.entry = .file 1 ∧
     lookupA exFS4s.files 1 = some fileA ∧
     descA.file_offset ≤ fileA.size ∧
     fileA.size ≤ fileA.data.length) ∧
    ((4 < min (descA.file_offset + 2) fileA.size - descA.file_offset →
       readOp exFS4s 0 4 2 = (.error .EFAULT, exFS4s)) ∧
     (min (descA.file_offset + 2) fileA.size - descA.file_offset ≤ 4 →
       readOp exFS4s 0 4 2 =
         (.ok (min (descA.file_offset + 2) fileA.size - descA.file_offset,
               (fileA.data.drop descA.file_offset).take
                 (min (descA.file_offset + 2) fileA.size - descA.file_offset)),
          { exFS4s with
            fds := insertA exFS4s.fds 0
              { descA with file_offset :=
                  descA.file_offset +
                    (min (descA.file_offset + 2) fileA.size - descA.file_offset) } }) ∧
       ((fileA.data.drop descA.file_offset).take
           (min (descA.file_offset + 2) fileA.size - descA.file_offset)).length =
         min (descA.file_offset + 2) fileA.size - descA.file_offset) ∧
     (fileA.size ≤ descA.file_offset →
       min (descA.file_offset + 2) fileA.size - descA.file_offset = 0)) :=
  ⟨⟨by decide, by decide, by decide, by decide, by decide, by decide⟩,
   read_file_semantics exFS4s 0 descA 1 fileA 4 2 (by decide) (by decide)
     (by decide) (by decide) (by decide) (by decide)⟩

/-! ## C4: oversized writes fail with `EFBIG` and change nothing -/

/-- C4.  For every write (append or non-append) through a writable descriptor
onto a file, whose end position (`S + W` for append, `O + W` otherwise, with
`W = min size |buffer|`) would exceed `FILE_MAX_SIZE`, `write` returns the
`EFBIG` error and the state — file size, file bytes and descriptor offset —
is exactly the state before the call. -/
theorem write_file_efbig (fs : FS) (fd : Nat) (d : Desc) (fid : Nat)
    (f : FileNode) (buffer : List Nat) (size : Nat)
    (hd : lookupA fs.fds fd = some d)
    (hw : containsF d.flag O_RDONLY = false)
    (he : d.entry = .file fid)
    (hf : lookupA fs.files fid = some f)
    (hbig : FILE_MAX_SIZE <
      (if containsF d.flag O_APPEND then f.size else d.file_offset) +
        min size buffer.length) :
    writeOp fs fd buffer size = (.error .EFBIG, fs) := by
  simp only [writeOp, hd, write_file, hw, Bool.false_eq_true, if_false, he, hf]
  cases happ : containsF d.flag O_APPEND with
  | true =>
    rw [happ] at hbig
    simp only [if_true]
    rw [if_pos (by simpa using hbig)]
  | false =>
    rw [happ] at hbig
    simp only [Bool.false_eq_true, if_false]
    rw [if_pos (by simpa using hbig)]

/-- Witness for C4: on `exFS4s` (offset 0), a non-append write of 17 bytes
exceeds `FILE_MAX_SIZE = 16` and leaves the state untouched. -/
theorem write_file_efbig_witness :
    (lookupA exFS4s.fds 0 = some descA ∧
     containsF descA.flag O_RDONLY = false ∧
     descA.entry = .file 1 ∧
     lookupA exFS4s.files 1 = some fileA ∧
     FILE_MAX_SIZE <
       (if containsF descA.flag O_APPEND then fileA.size else descA.file_offset) +
         min 17 (List.replicate 17 9).length) ∧
    writeOp exFS4s 0 (List.replicate 17 9) 17 = (.error .EFBIG, exFS4s) :=
  ⟨⟨by decide, by decide, by decide, by decide, by decide⟩,
   write_file_efbig exFS4s 0 descA 1 fileA (List.replicate 17 9) 17
     (by decide) (by decide) (by decide) (by decide) (by decide)⟩

/-! ## C5: lseek semantics -/

/-- C5.  For every descriptor whose target is a file of current size `S` with
current offset `O`, `lseek` stores and returns `min S (base + offset)`, where
`base` is 0 for `SEEK_SET`, `O` for `SEEK_CUR` and `S` for `SEEK_END`; in
particular the resulting offset never exceeds `S`. -/
theorem seek_file_semantics (fs : FS) (fd : Nat) (d : Desc) (fid : Nat)
    (f : FileNode) (offset : Nat) (whence : SeekFlag) (base : Nat)
    (hd : lookupA fs.fds fd = some d)
    (he : d.entry = .file fid)
    (hf : lookupA fs.files fid = some f)
    (hbase : base = (match whence with
                     | .SEEK_SET => 0
                     | .SEEK_CUR => d.file_offset
                     | .SEEK_END => f.size)) :
    seekOp fs fd offset whence =
      (.ok (min f.size (base + offset)),
       { fs with fds := insertA fs.fds fd { d with file_offset := min f.size (base + offset) } }) ∧
    min f.size (base + offset) ≤ f.size := by
  subst hbase
  refine ⟨?_, Nat.min_le_left _ _⟩
  cases whence <;> simp only [seekOp, hd, seek_file, he, hf]

/-- The descriptor stored at fd 0 in `exFS4` (offset advanced to 4). -/
def descA4 : Desc := { flag := O_RDWR, file_offset := 4, entry := .file 1 }

/-- Witness for C5: seeking descriptor 0 of `exFS4` (file size 4, offset 4)
by 3 from `SEEK_CUR` is capped at the file size 4. -/
theorem seek_file_semantics_witness :
    (lookupA exFS4.fds 0 = some descA4 ∧
     descA4.entry = .file 1 ∧
     lookupA exFS4.files 1 = some fileA ∧
     (4 : Nat) = (match SeekFlag.SEEK_CUR with
                  | .SEEK_SET => 0
                  | .SEEK_CUR => descA4.file_offset
                  | .SEEK_END => fileA.size)) ∧
    (seekOp exFS4 0 3 .SEEK_CUR =
      (.ok (min fileA.size (4 + 3)),
       { exFS4 with fds := insertA exFS4.fds 0 { descA4 with file_offset := min fileA.size (4 + 3) } }) ∧
     min fileA.size (4 + 3) ≤ fileA.size) :=
  ⟨⟨by decide, by decide, by decide, by decide⟩,
   seek_file_semantics exFS4 0 descA4 1 fileA 3 .SEEK_CUR 4
     (by decide) (by decide) (by decide) (by decide)⟩

/-! ## Association-list lemmas -/

instance exceptDecEq {e a : Type} [DecidableEq e] [DecidableEq a] :
    DecidableEq (Except e a) := fun x y =>
  match x, y with
  | .ok u, .ok v =>
    if h : u = v then isTrue (by subst h; rfl)
    else isFalse (fun hh => h (by cases hh; rfl))
  | .error u, .error v =>
    if h : u = v then isTrue (by subst h; rfl)
    else isFalse (fun hh => h (by cases hh; rfl))
  | .ok _, .error _ => isFalse (fun hh => Except.noConfusion hh)
  | .error _, .ok _ => isFalse (fun hh => Except.noConfusion hh)

theorem lookupA_insertA {κ α : Type} [DecidableEq κ] (m : List (κ × α))
    (k k' : κ) (v : α) :
    lookupA (insertA m k v) k' = if k' = k then some v else lookupA m k' := by
  induction m with
  | nil => simp [insertA, lookupA]
  | cons p ps ih =>
    obtain ⟨k0, v0⟩ := p
    by_cases h : k = k0
    · subst h
      by_cases h' : k' = k
      · subst h'
        simp [insertA, lookupA]
      · simp [insertA, lookupA, h']
    · by_cases h' : k' = k0
      · subst h'
        have hne : ¬ k' = k := fun hh => h hh.symm
        simp [insertA, lookupA, h, hne]
      · by_cases h'' : k' = k
        · subst h''
          simp [insertA, lookupA, h, h', ih]
        · simp [insertA, lookupA, h, h', h'', ih]

theorem lookupA_mem {κ α : Type} [DecidableEq κ] (m : List (κ × α)) (k : κ)
    (v : α) : lookupA m k = some v → (k, v) ∈ m := by
  induction m with
  | nil => intro h; simp [lookupA] at h
  | cons p ps ih =>
    obtain ⟨k0, v0⟩ := p
    intro h
    by_cases hk : k = k0
    · simp only [lookupA, if_pos hk] at h
      injection h with hv
      subst hv
      subst hk
      exact List.mem_cons_self _ _
    · simp only [lookupA, if_neg hk] at h
      exact List.mem_cons_of_mem _ (ih h)

theorem lookupA_eraseA_ne {κ α : Type} [DecidableEq κ] (m : List (κ × α))
    (k k' : κ) (h : k' ≠ k) :
    lookupA (eraseA m k) k' = lookupA m k' := by
  induction m with
  | nil => simp [eraseA]
  | cons p ps ih =>
    obtain ⟨k0, v0⟩ := p
    by_cases hk : k = k0
    · subst hk
      simp [eraseA, lookupA, h]
    · by_cases h' : k' = k0 <;> simp [eraseA, lookupA, hk, h', ih]

theorem lookupA_eraseA_self {κ α : Type} [DecidableEq κ] (m : List (κ × α))
    (k : κ) : keysNodup m → lookupA (eraseA m k) k = none := by
  induction m with
  | nil => intro _; simp [eraseA, lookupA]
  | cons p ps ih =>
    obtain ⟨k0, v0⟩ := p
    intro hm
    simp only [keysNodup, List.map_cons, List.nodup_cons] at hm
    by_cases hk : k = k0
    · subst hk
      have he : eraseA ((k, v0) :: ps) k = ps := by simp [eraseA]
      rw [he]
      cases hl : lookupA ps k with
      | none => rfl
      | some w =>
        exact absurd (List.mem_map_of_mem Prod.fst (lookupA_mem ps k w hl)) hm.1
    · have he : eraseA ((k0, v0) :: ps) k = (k0, v0) :: eraseA ps k := by
        simp [eraseA, hk]
      rw [he]
      simp only [lookupA]
      rw [if_neg hk]
      exact ih hm.2

theorem mem_insertA {κ α : Type} [DecidableEq κ] (m : List (κ × α))
    (k : κ) (v : α) (x : κ × α) :
    x ∈ insertA m k v → x = (k, v) ∨ x ∈ m := by
  induction m with
  | nil => intro h; simpa [insertA] using h
  | cons p ps ih =>
    obtain ⟨k0, v0⟩ := p
    intro h
    by_cases hk : k = k0
    · subst hk
      have he : insertA ((k, v0) :: ps) k v = (k, v) :: ps := by simp [insertA]
      rw [he] at h
      rcases List.mem_cons.mp h with h1 | h1
      · exact Or.inl h1
      · exact Or.inr (List.mem_cons_of_mem _ h1)
    · simp only [insertA, if_neg hk, List.mem_cons] at h
      rcases h with h1 | h1
      · exact Or.inr (by rw [h1]; exact List.mem_cons_self _ _)
      · rcases ih h1 with h2 | h2
        · exact Or.inl h2
        · exact Or.inr (List.mem_cons_of_mem _ h2)

theorem mem_of_eraseA {κ α : Type} [DecidableEq κ] (m : List (κ × α))
    (k : κ) (x : κ × α) : x ∈ eraseA m k → x ∈ m := by
  induction m with
  | nil => intro h; simp [eraseA] at h
  | cons p ps ih =>
    obtain ⟨k0, v0⟩ := p
    intro h
    by_cases hk : k = k0
    · subst hk
      have he : eraseA ((k, v0) :: ps) k = ps := by simp [eraseA]
      rw [he] at h
      exact List.mem_cons_of_mem _ h
    · simp only [eraseA, if_neg hk, List.mem_cons] at h
      rcases h with h1 | h1
      · exact by rw [h1]; exact List.mem_cons_self _ _
      · exact List.mem_cons_of_mem _ (ih h1)

/-! ## `writeRange` lemmas -/

theorem writeRange_length (data bytes : List Nat) (start : Nat)
    (h : start + bytes.length ≤ data.length) :
    (writeRange data start bytes).length = data.length := by
  simp [writeRange, List.length_append, List.length_take, List.length_drop]
  omega

theorem writeRange_drop_take (data bytes : List Nat) (start : Nat)
    (h : start + bytes.length ≤ data.length) :
    ((writeRange data start bytes).drop start).take bytes.length = bytes := by
  unfold writeRange
  have h1 : (data.take start).length = start := by
    rw [List.length_take]
    omega
  rw [List.append_assoc, List.drop_left' h1, List.take_left' rfl]

theorem writeRange_drop_take_of_length (data bytes : List Nat) (start n : Nat)
    (hn : bytes.length = n) (h : start + n ≤ data.length) :
    ((writeRange data start bytes).drop start).take n = bytes := by
  subst hn
  exact writeRange_drop_take data bytes start h

/-! ## C3: the append path publishes the size before copying the bytes

In both variants of `write_file`, the `O_APPEND` branch executes, in source
order: load `S` (`file.size.load(Acquire)`), the bound check, then
`file.size.store(S + W, Release)`, then the `copy_from_slice` into
`data[S .. S+W]`, then `self.file_offset.store(S + W, Release)`.  The three
mutations are the composition
`setFdOffset (copyFileData (setFileSize ..) ..) ..` in the definition of
`write_file`, so `setFileSize fs fid (S + W)` is the shared state visible to
other threads between the size store and the copy. -/

/-- A filesystem with file `/f` (id 1), an appending read-write descriptor 0
(`O_RDWR | O_APPEND`) and a reader descriptor 1 (`O_RDONLY`) on the same
file. -/
def exApp : FS :=
  (openFine ((openFine initFS "/f" (O_CREAT ||| (O_RDWR ||| O_APPEND))).2) "/f" O_RDONLY).2

/-- Counterexample to C3 as stated.  The appender writes the byte `7` through
descriptor 0 of `exApp` (file size 0).  The first shared-memory mutation of
the append path is the `size` store (the composition in `write_file` is the
source order), so `setFileSize exApp 1 1` is the state a concurrent reader
can observe between the size store and the byte copy: the stored size is
already `S + W = 1`, yet a read through descriptor 1 at offset 0 returns the
stale byte `0`, not the appended byte `7`.  Hence observing the stored size
does not imply observing the appended bytes. -/
theorem append_publish_counterexample :
    writeOp exApp 0 [7] 1 =
      (.ok 1, setFdOffset (copyFileData (setFileSize exApp 1 1) 1 0 [7]) 0 1) ∧
    (lookupA (setFileSize exApp 1 1).files 1).map FileNode.size = some 1 ∧
    (readOp (setFileSize exApp 1 1) 1 1 1).1 = .ok (1, [0]) ∧
    (Except.ok (1, [0]) : Except Err (Nat × List Nat)) ≠ .ok (1, [7]) := by
  refine ⟨by decide, by decide, by decide, by decide⟩

/-- C3, amended.  In every successful `O_APPEND` write of `W` bytes onto a
file of size `S`, the new size `S + W` is stored (release) BEFORE the bytes
are copied into `data[S .. S+W]`; the descriptor offset `S + W` is stored
after the copy.  A reader that observes the stored size `S + W` therefore
need not yet observe the appended bytes; once the write returns, the file
size is `S + W`, `data[S .. S+W]` holds the written bytes, and the
descriptor offset is `S + W`. -/
theorem append_publish_order (fs : FS) (fd : Nat) (d : Desc) (fid : Nat)
    (f : FileNode) (buffer : List Nat) (size : Nat)
    (hd : lookupA fs.fds fd = some d)
    (hw : containsF d.flag O_RDONLY = false)
    (hap : containsF d.flag O_APPEND = true)
    (he : d.entry = .file fid)
    (hf : lookupA fs.files fid = some f)
    (hmax : f.size + min size buffer.length ≤ FILE_MAX_SIZE)
    (hlen : f.data.length = FILE_MAX_SIZE) :
    writeOp fs fd buffer size =
      (.ok (min size buffer.length),
       setFdOffset
         (copyFileData (setFileSize fs fid (f.size + min size buffer.length))
           fid f.size (buffer.take (min size buffer.length)))
         fd (f.size + min size buffer.length)) ∧
    lookupA (setFileSize fs fid (f.size + min size buffer.length)).files fid =
      some { f with size := f.size + min size buffer.length } ∧
    lookupA
      (setFdOffset
        (copyFileData (setFileSize fs fid (f.size + min size buffer.length))
          fid f.size (buffer.take (min size buffer.length)))
        fd (f.size + min size buffer.length)).files fid =
      some { f with
             size := f.size + min size buffer.length
             data := writeRange f.data f.size (buffer.take (min size buffer.length)) } ∧
    ((writeRange f.data f.size (buffer.take (min size buffer.length))).drop f.size).take
        (min size buffer.length) =
      buffer.take (min size buffer.length) ∧
    lookupA
      (setFdOffset
        (copyFileData (setFileSize fs fid (f.size + min size buffer.length))
          fid f.size (buffer.take (min size buffer.length)))
        fd (f.size + min size buffer.length)).fds fd =
      some { d with file_offset := f.size + min size buffer.length } := by
  have htake : (buffer.take (min size buffer.length)).length = min size buffer.length := by
    rw [List.length_take]
    omega
  have hmid : lookupA (setFileSize fs fid (f.size + min size buffer.length)).files fid =
      some { f with size := f.size + min size buffer.length } := by
    simp only [setFileSize, hf]
    rw [lookupA_insertA]
    simp
  have hcopy : lookupA
      (copyFileData (setFileSize fs fid (f.size + min size buffer.length))
        fid f.size (buffer.take (min size buffer.length))).files fid =
      some { f with
             size := f.size + min size buffer.length
             data := writeRange f.data f.size (buffer.take (min size buffer.length)) } := by
    simp only [copyFileData, hmid]
    rw [lookupA_insertA]
    simp
  have hfdsc : (copyFileData (setFileSize fs fid (f.size + min size buffer.length))
      fid f.size (buffer.take (min size buffer.length))).fds = fs.fds := by
    simp only [copyFileData, hmid]
    simp only [setFileSize, hf]
  refine ⟨?_, hmid, ?_, ?_, ?_⟩
  · simp only [writeOp, hd, write_file, hw, Bool.false_eq_true, if_false, he, hf, hap, if_true]
    rw [if_neg (by omega)]
  · simp only [setFdOffset, hfdsc, hd]
    exact hcopy
  · apply writeRange_drop_take_of_length
    · exact htake
    · omega
  · simp only [setFdOffset, hfdsc, hd]
    rw [lookupA_insertA]
    simp

/-- Witness for the amended C3 on `exApp`: appending `[7]` through
descriptor 0. -/
theorem append_publish_order_witness :
    (lookupA exApp.fds 0 = some { flag := O_RDWR ||| O_APPEND, file_offset := 0, entry := .file 1 } ∧
     lookupA exApp.files 1 = some { size := 0, data := List.replicate 16 0 } ∧
     (0 : Nat) + min 1 [7].length ≤ FILE_MAX_SIZE) ∧
    (writeOp exApp 0 [7] 1 =
      (.ok (min 1 [7].length),
       setFdOffset
         (copyFileData (setFileSize exApp 1 (0 + min 1 [7].length))
           1 0 ([7].take (min 1 [7].length)))
         0 (0 + min 1 [7].length)) ∧
     lookupA (setFileSize exApp 1 (0 + min 1 [7].length)).files 1 =
       some { size := 0 + min 1 [7].length, data := List.replicate 16 0 } ∧
     lookupA
       (setFdOffset
         (copyFileData (setFileSize exApp 1 (0 + min 1 [7].length))
           1 0 ([7].take (min 1 [7].length)))
         0 (0 + min 1 [7].length)).files 1 =
       some { size := 0 + min 1 [7].length
              data := writeRange (List.replicate 16 0) 0 ([7].take (min 1 [7].length)) } ∧
     ((writeRange (List.replicate 16 0) 0 ([7].take (min 1 [7].length))).drop 0).take
         (min 1 [7].length) =
       [7].take (min 1 [7].length) ∧
     lookupA
       (setFdOffset
         (copyFileData (setFileSize exApp 1 (0 + min 1 [7].length))
           1 0 ([7].take (min 1 [7].length)))
         0 (0 + min 1 [7].length)).fds 0 =
       some { flag := O_RDWR ||| O_APPEND, file_offset := 0 + min 1 [7].length, entry := .file 1 }) :=
  ⟨⟨by decide, by decide, by decide⟩,
   append_publish_order exApp 0
     { flag := O_RDWR ||| O_APPEND, file_offset := 0, entry := .file 1 } 1
     { size := 0, data := List.replicate 16 0 } [7] 1
     (by decide) (by decide) (by decide) (by decide) (by decide) (by decide) (by decide)⟩

/-! ## C10: `open` with `O_CREAT` accepts the special name `..` -/

/-- C10.  `open` with `O_CREAT` performs no rejection of special component
names: for a directory `D` (id `did`) with no child literally named `".."`,
opening a path whose parent resolves to `D` and whose last component is
`".."` inserts a regular file under the key `".."` in `D`'s children map and
returns a fresh descriptor to it; afterwards resolution of `".."` inside `D`
returns that file instead of `D`'s parent.  `mkdir` on the same path, by
contrast, rejects the `".."` component with `EEXIST`. -/
theorem open_creat_dotdot (fs : FS) (p : String) (did : Nat) (d : DirNode)
    (flag : Nat)
    (hm : check_mode_exclusiveness flag = true)
    (hc : containsF flag O_CREAT = true)
    (hpar : get_parent_directory_node_of_given_path fs.dirs fs.rootId fs.cwdRef p =
      .ok (.dir did))
    (hlast : get_last_component_of_path p = .ok "..")
    (hd : lookupA fs.dirs did = some d)
    (hvac : lookupA d.children ".." = none)
    (hpool : fs.pool ≠ 0) :
    openFine fs p flag =
      (.ok fs.fdCount,
       { fs with
         pool := fs.pool - 1
         nextId := fs.nextId + 1
         files := insertA fs.files fs.nextId { size := 0, data := List.replicate FILE_MAX_SIZE 0 }
         dirs := insertA fs.dirs did { d with children := insertA d.children ".." (.file fs.nextId) }
         fds := insertA fs.fds fs.fdCount
           { flag := withoutF flag O_CREAT, file_offset := 0, entry := .file fs.nextId }
         fdCount := fs.fdCount + 1 }) ∧
    search_entry_with_path
      (insertA fs.dirs did { d with children := insertA d.children ".." (.file fs.nextId) })
      did ".." [] = .ok (.file fs.nextId) ∧
    mkdirOp fs p = (.error .EEXIST, fs) := by
  have hp : p ≠ "/" := by
    intro hh
    rw [hh] at hlast
    have : get_last_component_of_path "/" = .ok "" := by decide
    rw [this] at hlast
    exact absurd (Except.ok.inj hlast) (by decide)
  refine ⟨?_, ?_, ?_⟩
  · simp only [openFine, hm, Bool.not_true, Bool.false_eq_true, if_false, hpar,
      hlast, resolve_dir_and_entry_id, hd, hvac, hc, if_true]
    rw [if_neg hpool]
  · have h1 : lookupA (insertA fs.dirs did { d with children := insertA d.children ".." (.file fs.nextId) }) did =
        some { d with children := insertA d.children ".." (.file fs.nextId) } := by
      rw [lookupA_insertA]
      simp
    have h2 : lookupA (insertA d.children ".." (EntryRef.file fs.nextId)) ".." =
        some (.file fs.nextId) := by
      rw [lookupA_insertA]
      simp
    simp only [search_entry_with_path, h1, h2]
  · simp only [mkdirOp, if_neg hp, hpar, hlast]
    simp

/-- A filesystem with a single empty directory `/d` (id 1). -/
def exD : FS := (mkdirOp initFS "/d").2

/-- The directory node of `/d` inside `exD`. -/
def dNode : DirNode := { parent := some 0, children := [] }

/-- Witness for C10 on `exD`: opening `"/d/.."` with `O_CREAT | O_RDWR`
creates a file named `".."` inside `/d`. -/
theorem open_creat_dotdot_witness :
    (check_mode_exclusiveness modeCRW = true ∧
     containsF modeCRW O_CREAT = true ∧
     get_parent_directory_node_of_given_path exD.dirs exD.rootId exD.cwdRef "/d/.." =
       .ok (.dir 1) ∧
     get_last_component_of_path "/d/.." = .ok ".." ∧
     lookupA exD.dirs 1 = some dNode ∧
     exD.pool ≠ 0) ∧
    (openFine exD "/d/.." modeCRW =
      (.ok exD.fdCount,
       { exD with
         pool := exD.pool - 1
         nextId := exD.nextId + 1
         files := insertA exD.files exD.nextId { size := 0, data := List.replicate FILE_MAX_SIZE 0 }
         dirs := insertA exD.dirs 1
           { dNode with children := insertA dNode.children ".." (.file exD.nextId) }
         fds := insertA exD.fds exD.fdCount
           { flag := withoutF modeCRW O_CREAT, file_offset := 0, entry := .file exD.nextId }
         fdCount := exD.fdCount + 1 }) ∧
     search_entry_with_path
       (insertA exD.dirs 1
         { dNode with children := insertA dNode.children ".." (.file exD.nextId) })
       1 ".." [] = .ok (.file exD.nextId) ∧
     mkdirOp exD "/d/.." = (.error .EEXIST, exD)) :=
  ⟨⟨by decide, by decide, by decide, by decide, by decide, by decide⟩,
   open_creat_dotdot exD "/d/.." 1 dNode modeCRW
     (by decide) (by decide) (by decide) (by decide) (by decide) (by decide) (by decide)⟩

/-! ## C1: the lock-free `O_CREAT|O_EXCL` race -/

/-- The flag combination `O_CREAT | O_EXCL | O_RDWR` used by the racers. -/
def lfRaceFlag : Nat := O_CREAT ||| (O_EXCL ||| O_RDWR)

/-- First racer's continuation after its `get` saw no entry. -/
def lfRace1 : Except Err Nat × FS := lfOpenVacantContinue initFS 0 "x" lfRaceFlag

/-- Second racer's continuation, run after the first racer finished, but with
the decision its own earlier `get` (also against `initFS`) produced. -/
def lfRace2 : Except Err Nat × FS := lfOpenVacantContinue lfRace1.2 0 "x" lfRaceFlag

/-- C1 fails on the lock-free variant: two concurrent
`open("/x", O_CREAT|O_EXCL|O_RDWR)` calls on a fresh filesystem can BOTH
return `Ok`.  Interleaving: both threads run phase 1 (`parent_pin.get`)
against the initial state and see `vacant`; then each in turn runs the
`None`-branch continuation (pool pop, fresh fd, plain `insert`).  Both calls
return fresh descriptors (0 and 1); the second `insert` overwrites the first
file node, leaving descriptor 0 pointing at an orphaned file.  The
fine-grained (`DashMap::entry` under the shard lock) and coarse-grained
(children map under its `RwLock` write guard) variants do make the
check-and-insert atomic; the lock-free `open` alone uses `get` + `insert`
instead of the atomic `try_insert_with` that the lock-free
`create_new_directory` uses — the slip this theorem exhibits. -/
theorem lockfree_open_excl_race :
    get_parent_directory_node_of_given_path initFS.dirs initFS.rootId initFS.cwdRef "/x" =
      .ok (.dir 0) ∧
    get_last_component_of_path "/x" = .ok "x" ∧
    lfOpenCheck initFS "/x" lfRaceFlag = .ok .vacant ∧
    lfRace1.1 = .ok 0 ∧
    lfRace2.1 = .ok 1 ∧
    (lookupA lfRace2.2.dirs 0).map DirNode.children = some [("x", .file 2)] ∧
    (lookupA lfRace2.2.fds 0).map Desc.entry = some (.file 1) ∧
    (lookupA lfRace2.2.fds 1).map Desc.entry = some (.file 2) := by
  refine ⟨by decide, by decide, by decide, by decide, by decide, by decide, by decide, by decide⟩

/-! ## C7: `rmdir` error precedence and cases -/

/-- Counterexample to C7 as stated.  The claim demands `EINVAL` for every
path whose last component is `"."`, but `rmdir` resolves the parent
directory FIRST: on a fresh filesystem, `rmdir("/x/y/.")` — last component
`"."` — fails parent resolution (no `/x`) and returns `ENOENT`, not
`EINVAL`. -/
theorem rmdir_dot_precedence_counterexample :
    get_last_component_of_path "/x/y/." = .ok "." ∧
    rmdirOp initFS "/x/y/." = (.error .ENOENT, initFS) ∧
    Err.ENOENT ≠ Err.EINVAL := by
  refine ⟨by decide, by decide, by decide⟩

/-- C7, amended.  `rmdir` returns `EBUSY` for `"/"`; otherwise it resolves
the parent directory of the path first and returns that resolution's error
on failure.  Once the parent is resolved (to a directory), it returns
`EINVAL` when the last component is `"."` and `ENOTEMPTY` when it is `".."`;
otherwise it returns `ENOENT` if the named entry is absent, `ENOTDIR` if it
is a file, `ENOTEMPTY` if it is a non-empty directory, and removes the entry
and returns `Ok` exactly when it is an empty directory. -/
theorem rmdir_resolved_cases (fs : FS) (p : String) (did : Nat) (d : DirNode)
    (l : String)
    (hp : p ≠ "/")
    (hpar : get_parent_directory_node_of_given_path fs.dirs fs.rootId fs.cwdRef p =
      .ok (.dir did))
    (hd : lookupA fs.dirs did = some d)
    (hl : get_last_component_of_path p = .ok l) :
    (∀ fs2 : FS, rmdirOp fs2 "/" = (.error .EBUSY, fs2)) ∧
    (∀ (fs2 : FS) (q : String) (e : Err), q ≠ "/" →
       get_parent_directory_node_of_given_path fs2.dirs fs2.rootId fs2.cwdRef q = .error e →
       rmdirOp fs2 q = (.error e, fs2)) ∧
    (l = "." → rmdirOp fs p = (.error .EINVAL, fs)) ∧
    (l = ".." → rmdirOp fs p = (.error .ENOTEMPTY, fs)) ∧
    (l ≠ "." → l ≠ ".." →
      ((lookupA d.children l = none → rmdirOp fs p = (.error .ENOENT, fs)) ∧
       (∀ fid, lookupA d.children l = some (.file fid) →
          rmdirOp fs p = (.error .ENOTDIR, fs)) ∧
       (∀ j dj, lookupA d.children l = some (.dir j) → lookupA fs.dirs j = some dj →
          ((dj.children.isEmpty = false → rmdirOp fs p = (.error .ENOTEMPTY, fs)) ∧
           (dj.children.isEmpty = true →
              rmdirOp fs p =
                (.ok (),
                 { fs with dirs := insertA fs.dirs did { d with children := eraseA d.children l } })))))) := by
  refine ⟨?_, ?_, ?_, ?_, ?_⟩
  · intro fs2
    simp [rmdirOp]
  · intro fs2 q e hq hres
    simp [rmdirOp, if_neg hq, hres]
  · intro h1
    subst h1
    simp [rmdirOp, if_neg hp, hpar, hl]
  · intro h1
    subst h1
    simp [rmdirOp, if_neg hp, hpar, hl]
  · intro h1 h2
    refine ⟨?_, ?_, ?_⟩
    · intro hnone
      simp [rmdirOp, if_neg hp, hpar, hl, h1, h2, remove_directory, hd, hnone]
    · intro fid hfile
      simp [rmdirOp, if_neg hp, hpar, hl, h1, h2, remove_directory, hd, hfile]
    · intro j dj hdir hdj
      constructor
      · intro hne
        simp [rmdirOp, if_neg hp, hpar, hl, h1, h2, remove_directory, hd, hdir, hdj, hne]
      · intro hemp
        simp [rmdirOp, if_neg hp, hpar, hl, h1, h2, remove_directory, hd, hdir, hdj, hemp]

/-- The root directory node of `exD`. -/
def rootD : DirNode := { parent := none, children := [("d", .dir 1)] }

/-- Witness for the amended C7 on `exD`: `rmdir("/d")` removes the empty
directory `/d`. -/
theorem rmdir_resolved_cases_witness :
    (("/d" : String) ≠ "/" ∧
     get_parent_directory_node_of_given_path exD.dirs exD.rootId exD.cwdRef "/d" =
       .ok (.dir 0) ∧
     lookupA exD.dirs 0 = some rootD ∧
     get_last_component_of_path "/d" = .ok "d") ∧
    ((∀ fs2 : FS, rmdirOp fs2 "/" = (.error .EBUSY, fs2)) ∧
     (∀ (fs2 : FS) (q : String) (e : Err), q ≠ "/" →
        get_parent_directory_node_of_given_path fs2.dirs fs2.rootId fs2.cwdRef q = .error e →
        rmdirOp fs2 q = (.error e, fs2)) ∧
     (("d" : String) = "." → rmdirOp exD "/d" = (.error .EINVAL, exD)) ∧
     (("d" : String) = ".." → rmdirOp exD "/d" = (.error .ENOTEMPTY, exD)) ∧
     (("d" : String) ≠ "." → ("d" : String) ≠ ".." →
       ((lookupA rootD.children "d" = none → rmdirOp exD "/d" = (.error .ENOENT, exD)) ∧
        (∀ fid, lookupA rootD.children "d" = some (.file fid) →
           rmdirOp exD "/d" = (.error .ENOTDIR, exD)) ∧
        (∀ j dj, lookupA rootD.children "d" = some (.dir j) → lookupA exD.dirs j = some dj →
           ((dj.children.isEmpty = false → rmdirOp exD "/d" = (.error .ENOTEMPTY, exD)) ∧
            (dj.children.isEmpty = true →
               rmdirOp exD "/d" =
                 (.ok (),
                  { exD with dirs := insertA exD.dirs 0 { rootD with children := eraseA rootD.children "d" } }))))))) :=
  ⟨⟨by decide, by decide, by decide, by decide⟩,
   rmdir_resolved_cases exD "/d" 0 rootD "d"
     (by decide) (by decide) (by decide) (by decide)⟩

/-! ## C9: the coarse-grained `open(O_CREAT)` pool leak -/

/-- `n` successive coarse-grained `open` calls with the same arguments. -/
def openCoarseIter (fs : FS) (p : String) (flag : Nat) : Nat → FS
  | 0 => fs
  | n + 1 => (openCoarse (openCoarseIter fs p flag n) p flag).2

theorem containsF_and_excl (flag : Nat) :
    containsF (O_EXCL &&& flag) O_EXCL = containsF flag O_EXCL := by
  have h : (O_EXCL &&& flag) &&& O_EXCL = flag &&& O_EXCL := by
    rw [Nat.land_comm O_EXCL flag, Nat.land_assoc]
    have h16 : O_EXCL &&& O_EXCL = O_EXCL := by decide
    rw [h16]
  simp [containsF, h]

/-- With `O_CREAT` set and an empty pool, the coarse `open` fails with
`ENOMEM` before touching anything. -/
theorem openCoarse_pool_empty (s : FS) (p : String) (flag : Nat)
    (hm : check_mode_exclusiveness flag = true)
    (hc : containsF flag O_CREAT = true)
    (h0 : s.pool = 0) :
    openCoarse s p flag = (.error .ENOMEM, s) := by
  simp only [openCoarse, hm, Bool.not_true, Bool.false_eq_true, if_false, hc,
    if_true, if_pos h0]

/-- One coarse `open(O_CREAT)` call on a path whose last component already
exists: whatever else happens, the state keeps its directory tree, file
heap, root and cwd, and loses exactly one pool slot. -/
theorem openCoarse_existing_step (s : FS) (p : String) (did : Nat)
    (d : DirNode) (l : String) (v : EntryRef) (flag : Nat)
    (hm : check_mode_exclusiveness flag = true)
    (hc : containsF flag O_CREAT = true)
    (hpar : get_parent_directory_node_of_given_path s.dirs s.rootId s.cwdRef p =
      .ok (.dir did))
    (hl : get_last_component_of_path p = .ok l)
    (hd : lookupA s.dirs did = some d)
    (hocc : lookupA d.children l = some v)
    (hpool : s.pool ≠ 0) :
    (openCoarse s p flag).2.dirs = s.dirs ∧
    (openCoarse s p flag).2.files = s.files ∧
    (openCoarse s p flag).2.rootId = s.rootId ∧
    (openCoarse s p flag).2.cwdRef = s.cwdRef ∧
    (openCoarse s p flag).2.pool = s.pool - 1 := by
  simp only [openCoarse, hm, Bool.not_true, Bool.false_eq_true, if_false, hc,
    if_true, if_neg hpool, createCoarse, hpar, hl, create_new_file, hd, hocc]
  cases hex : containsF (O_EXCL &&& flag) O_EXCL with
  | true => simp
  | false =>
    simp only [Bool.false_eq_true, if_false]
    cases hn : get_node_of_given_path s.dirs s.rootId s.cwdRef p with
    | error e => simp
    | ok nref => cases nref <;> simp

/-- C9.  In the coarse-grained variant, every `open` call with `O_CREAT` set
pops a buffer from the pool BEFORE checking whether the name exists
(`self.create(path, O_EXCL & flag, self.allocate_file_memory()?)`); when the
name does exist the buffer is dropped and never returned, so each such call
permanently shrinks the pool by one slot while creating no file: with an
empty pool it fails `ENOMEM` outright; with `O_EXCL` it fails `EEXIST` with
the pool already decremented; without `O_EXCL` it succeeds on the existing
file with the pool decremented.  Iterating such calls shrinks the pool by
one each time, and once at least `pool` many calls have run (in particular
after `NUMBER_OF_MAXIMUM_FILES` of them on a fresh pool), every further
`open(existing, O_CREAT|mode)` fails with `ENOMEM` even though no file would
be created. -/
theorem coarse_open_pool_leak (fs : FS) (p : String) (did : Nat) (d : DirNode)
    (l : String) (v : EntryRef) (flag fid : Nat)
    (hm : check_mode_exclusiveness flag = true)
    (hc : containsF flag O_CREAT = true)
    (hpar : get_parent_directory_node_of_given_path fs.dirs fs.rootId fs.cwdRef p =
      .ok (.dir did))
    (hl : get_last_component_of_path p = .ok l)
    (hd : lookupA fs.dirs did = some d)
    (hocc : lookupA d.children l = some v)
    (hnode : get_node_of_given_path fs.dirs fs.rootId fs.cwdRef p = .ok (.file fid)) :
    (fs.pool = 0 → openCoarse fs p flag = (.error .ENOMEM, fs)) ∧
    (fs.pool ≠ 0 → containsF flag O_EXCL = true →
       openCoarse fs p flag = (.error .EEXIST, { fs with pool := fs.pool - 1 })) ∧
    (fs.pool ≠ 0 → containsF flag O_EXCL = false →
       openCoarse fs p flag =
         (.ok fs.fdCount,
          { fs with
            pool := fs.pool - 1
            fds := insertA fs.fds fs.fdCount
              { flag := withoutF flag O_CREAT, file_offset := 0, entry := .file fid }
            fdCount := fs.fdCount + 1 })) ∧
    (∀ n, (openCoarseIter fs p flag n).pool = fs.pool - n) ∧
    (∀ n, fs.pool ≤ n →
       (openCoarse (openCoarseIter fs p flag n) p flag).1 = .error .ENOMEM) := by
  have hexcl := containsF_and_excl flag
  have haux : ∀ n, (openCoarseIter fs p flag n).dirs = fs.dirs ∧
      (openCoarseIter fs p flag n).files = fs.files ∧
      (openCoarseIter fs p flag n).rootId = fs.rootId ∧
      (openCoarseIter fs p flag n).cwdRef = fs.cwdRef ∧
      (openCoarseIter fs p flag n).pool = fs.pool - n := by
    intro n
    induction n with
    | zero => exact ⟨rfl, rfl, rfl, rfl, rfl⟩
    | succ n ih =>
      obtain ⟨ihd, ihf, ihr, ihc, ihp⟩ := ih
      by_cases h0 : (openCoarseIter fs p flag n).pool = 0
      · have heq := openCoarse_pool_empty (openCoarseIter fs p flag n) p flag hm hc h0
        have : openCoarseIter fs p flag (n + 1) = openCoarseIter fs p flag n := by
          simp only [openCoarseIter, heq]
        rw [this, ihd, ihf, ihr, ihc]
        refine ⟨rfl, rfl, rfl, rfl, ?_⟩
        omega
      · have hstep := openCoarse_existing_step (openCoarseIter fs p flag n) p did d l v flag
          hm hc (by rw [ihd, ihr, ihc]; exact hpar) hl (by rw [ihd]; exact hd) hocc h0
        obtain ⟨s1, s2, s3, s4, s5⟩ := hstep
        simp only [openCoarseIter]
        rw [s1, s2, s3, s4, s5, ihd, ihf, ihr, ihc, ihp]
        refine ⟨rfl, rfl, rfl, rfl, ?_⟩
        omega
  refine ⟨?_, ?_, ?_, fun n => (haux n).2.2.2.2, ?_⟩
  · intro h0
    exact openCoarse_pool_empty fs p flag hm hc h0
  · intro hpool hx
    have hx' : containsF (O_EXCL &&& flag) O_EXCL = true := by rw [hexcl]; exact hx
    simp only [openCoarse, hm, Bool.not_true, Bool.false_eq_true, if_false, hc,
      if_true, if_neg hpool, createCoarse, hpar, hl, create_new_file, hd, hocc,
      hx', if_true]
  · intro hpool hx
    have hx' : containsF (O_EXCL &&& flag) O_EXCL = false := by rw [hexcl]; exact hx
    simp only [openCoarse, hm, Bool.not_true, Bool.false_eq_true, if_false, hc,
      if_true, if_neg hpool, createCoarse, hpar, hl, create_new_file, hd, hocc,
      hx', Bool.false_eq_true, if_false, hnode]
  · intro n hn
    have h0 : (openCoarseIter fs p flag n).pool = 0 := by
      rw [(haux n).2.2.2.2]
      omega
    rw [openCoarse_pool_empty (openCoarseIter fs p flag n) p flag hm hc h0]

/-- A filesystem built by a coarse-grained `open(\"/f\", O_CREAT|O_RDWR)` on
a fresh state: file `/f` (id 1), descriptor 0, pool 3 of 4 left. -/
def exCoarse : FS := (openCoarse initFS "/f" modeCRW).2

/-- The root directory node of `exCoarse`. -/
def rootF : DirNode := { parent := none, children := [("f", .file 1)] }

/-- Witness for C9 on `exCoarse`: on the pool of `NUMBER_OF_MAXIMUM_FILES =
4` buffers, one was consumed creating `/f`; each further
`open("/f", O_CREAT|O_RDWR)` leaks one more, and after 4 such calls on the
existing file the pool is exhausted and the call fails `ENOMEM`. -/
theorem coarse_open_pool_leak_witness :
    (check_mode_exclusiveness modeCRW = true ∧
     containsF modeCRW O_CREAT = true ∧
     get_parent_directory_node_of_given_path exCoarse.dirs exCoarse.rootId exCoarse.cwdRef "/f" =
       .ok (.dir 0) ∧
     get_last_component_of_path "/f" = .ok "f" ∧
     lookupA exCoarse.dirs 0 = some rootF ∧
     lookupA rootF.children "f" = some (.file 1) ∧
     get_node_of_given_path exCoarse.dirs exCoarse.rootId exCoarse.cwdRef "/f" =
       .ok (.file 1)) ∧
    ((exCoarse.pool = 0 → openCoarse exCoarse "/f" modeCRW = (.error .ENOMEM, exCoarse)) ∧
     (exCoarse.pool ≠ 0 → containsF modeCRW O_EXCL = true →
        openCoarse exCoarse "/f" modeCRW = (.error .EEXIST, { exCoarse with pool := exCoarse.pool - 1 })) ∧
     (exCoarse.pool ≠ 0 → containsF modeCRW O_EXCL = false →
        openCoarse exCoarse "/f" modeCRW =
          (.ok exCoarse.fdCount,
           { exCoarse with
             pool := exCoarse.pool - 1
             fds := insertA exCoarse.fds exCoarse.fdCount
               { flag := withoutF modeCRW O_CREAT, file_offset := 0, entry := .file 1 }
             fdCount := exCoarse.fdCount + 1 })) ∧
     (∀ n, (openCoarseIter exCoarse "/f" modeCRW n).pool = exCoarse.pool - n) ∧
     (∀ n, exCoarse.pool ≤ n →
        (openCoarse (openCoarseIter exCoarse "/f" modeCRW n) "/f" modeCRW).1 = .error .ENOMEM)) :=
  ⟨⟨by decide, by decide, by decide, by decide, by decide, by decide, by decide⟩,
   coarse_open_pool_leak exCoarse "/f" 0 rootF "f" (.file 1) modeCRW 1
     (by decide) (by decide) (by decide) (by decide) (by decide) (by decide) (by decide)⟩

/-! ## C6: `unlink` frame effect

Removing a file child from a directory cannot change any successful path
resolution that did not end at that child: an interior lookup that hit the
file slot fails with `ENOTDIR`, and a final lookup that hit it returns the
file itself. -/

/-- Path resolution that succeeds with a non-file result only ever reads
directory lookups that a file-child erasure leaves intact.  Stated for an
abstract second heap `dirs2` that agrees with `dirs` everywhere except that
the children map of `did` may differ at the key `l`, which in `dirs` holds a
file: a successful non-file resolution never consults that slot (an interior
hit would be `ENOTDIR`, a final hit would return the file), so it returns
the same result over `dirs2`. -/
theorem search_preserve_general (dirs dirs2 : List (Nat × DirNode)) (did : Nat)
    (d0 d2 : DirNode) (l : String) (fid : Nat)
    (hd0 : lookupA dirs did = some d0)
    (hfile : lookupA d0.children l = some (.file fid))
    (h2did : lookupA dirs2 did = some d2)
    (h2other : ∀ j, j ≠ did → lookupA dirs2 j = lookupA dirs j)
    (h2par : d2.parent = d0.parent)
    (h2ch : ∀ c, c ≠ l → lookupA d2.children c = lookupA d0.children c) :
    ∀ (rest : List String) (i : Nat) (c : String) (r : EntryRef),
      search_entry_with_path dirs i c rest = .ok r →
      (∀ g, r ≠ .file g) →
      search_entry_with_path dirs2 i c rest = .ok r := by
  have hiso : ∀ pid, (lookupA dirs2 pid).isSome = (lookupA dirs pid).isSome := by
    intro pid
    by_cases hpd : pid = did
    · subst hpd
      simp [h2did, hd0]
    · rw [h2other pid hpd]
  intro rest
  induction rest with
  | nil =>
    intro i c r h hr
    rw [search_entry_with_path.eq_def] at h
    rw [search_entry_with_path.eq_def]
    cases hdi : lookupA dirs i with
    | none =>
      simp only [hdi] at h
      exact absurd h (by simp)
    | some di =>
      simp only [hdi] at h
      by_cases hi : i = did
      · subst hi
        have hdd : di = d0 := by
          rw [hdi] at hd0
          exact Option.some.inj hd0
        simp only [h2did]
        cases hcc : lookupA di.children c with
        | some v =>
          simp only [hcc] at h
          have hcl : c ≠ l := by
            intro hcl
            rw [hcl, hdd, hfile] at hcc
            have hv : v = .file fid := (Option.some.inj hcc).symm
            rw [hv] at h
            exact hr fid (Except.ok.inj h).symm
          rw [hdd] at hcc
          simp only [h2ch c hcl, hcc]
          exact h
        | none =>
          simp only [hcc] at h
          have hcl : c ≠ l := by
            intro hcl
            rw [hcl, hdd, hfile] at hcc
            exact Option.noConfusion hcc
          rw [hdd] at hcc
          simp only [h2ch c hcl, hcc]
          by_cases hc2 : c = ".."
          · simp only [if_pos hc2] at h ⊢
            rw [hdd] at h
            simp only [h2par]
            cases hp : d0.parent with
            | none =>
              simp only [hp] at h ⊢
              exact h
            | some pid =>
              simp only [hp] at h ⊢
              simp only [hiso pid]
              by_cases hs : (lookupA dirs pid).isSome
              · simp only [if_pos hs] at h ⊢
                exact h
              · simp only [if_neg hs] at h
                exact absurd h (by simp)
          · simp only [if_neg hc2] at h
            exact absurd h (by simp)
      · simp only [h2other i hi, hdi]
        cases hcc : lookupA di.children c with
        | some v =>
          simp only [hcc] at h ⊢
          exact h
        | none =>
          simp only [hcc] at h ⊢
          by_cases hc2 : c = ".."
          · simp only [if_pos hc2] at h ⊢
            cases hp : di.parent with
            | none =>
              simp only [hp] at h ⊢
              exact h
            | some pid =>
              simp only [hp] at h ⊢
              simp only [hiso pid]
              by_cases hs : (lookupA dirs pid).isSome
              · simp only [if_pos hs] at h ⊢
                exact h
              · simp only [if_neg hs] at h
                exact absurd h (by simp)
          · simp only [if_neg hc2] at h
            exact absurd h (by simp)
  | cons r1 rs ih =>
    intro i c r h hr
    rw [search_entry_with_path.eq_def] at h
    rw [search_entry_with_path.eq_def]
    cases hdi : lookupA dirs i with
    | none =>
      simp only [hdi] at h
      exact absurd h (by simp)
    | some di =>
      simp only [hdi] at h
      by_cases hi : i = did
      · subst hi
        have hdd : di = d0 := by
          rw [hdi] at hd0
          exact Option.some.inj hd0
        simp only [h2did]
        cases hcc : lookupA di.children c with
        | some v =>
          simp only [hcc] at h
          have hcl : c ≠ l := by
            intro hcl
            rw [hcl, hdd, hfile] at hcc
            have hv : v = .file fid := (Option.some.inj hcc).symm
            rw [hv] at h
            exact absurd h (by simp)
          rw [hdd] at hcc
          simp only [h2ch c hcl, hcc]
          cases v with
          | file g => exact absurd h (by simp)
          | rootSentinel => exact absurd h (by simp)
          | dir j =>
            simp only [] at h ⊢
            exact ih j r1 r h hr
        | none =>
          simp only [hcc] at h
          have hcl : c ≠ l := by
            intro hcl
            rw [hcl, hdd, hfile] at hcc
            exact Option.noConfusion hcc
          rw [hdd] at hcc
          simp only [h2ch c hcl, hcc]
          by_cases hc2 : c = ".."
          · simp only [if_pos hc2] at h ⊢
            rw [hdd] at h
            simp only [h2par]
            cases hp : d0.parent with
            | none =>
              simp only [hp] at h ⊢
              exact ih i r1 r h hr
            | some pid =>
              simp only [hp] at h ⊢
              exact ih pid r1 r h hr
          · simp only [if_neg hc2] at h
            exact absurd h (by simp)
      · simp only [h2other i hi, hdi]
        cases hcc : lookupA di.children c with
        | some v =>
          simp only [hcc] at h ⊢
          cases v with
          | file g => exact absurd h (by simp)
          | rootSentinel => exact absurd h (by simp)
          | dir j =>
            simp only [] at h ⊢
            exact ih j r1 r h hr
        | none =>
          simp only [hcc] at h ⊢
          by_cases hc2 : c = ".."
          · simp only [if_pos hc2] at h ⊢
            cases hp : di.parent with
            | none =>
              simp only [hp] at h ⊢
              exact ih i r1 r h hr
            | some pid =>
              simp only [hp] at h ⊢
              exact ih pid r1 r h hr
          · simp only [if_neg hc2] at h
            exact absurd h (by simp)

/-- `get_parent_directory_node_of_given_path` that succeeds with a non-file
result is unchanged by erasing a file child anywhere in the heap. -/
theorem get_parent_erase_file (dirs : List (Nat × DirNode)) (rootId : Nat)
    (cwdRef : EntryRef) (did : Nat) (d0 : DirNode) (l : String) (fid : Nat)
    (p : String) (pref : EntryRef)
    (hd0 : lookupA dirs did = some d0)
    (hfile : lookupA d0.children l = some (.file fid))
    (h : get_parent_directory_node_of_given_path dirs rootId cwdRef p = .ok pref)
    (hr : ∀ g, pref ≠ .file g) :
    get_parent_directory_node_of_given_path
      (insertA dirs did { d0 with children := eraseA d0.children l })
      rootId cwdRef p = .ok pref := by
  have hsearch := search_preserve_general dirs
    (insertA dirs did { d0 with children := eraseA d0.children l }) did d0
    { d0 with children := eraseA d0.children l } l fid hd0 hfile
    (by rw [lookupA_insertA]; simp)
    (by intro j hj; rw [lookupA_insertA, if_neg hj])
    rfl
    (fun c hc => lookupA_eraseA_ne d0.children l c hc)
  simp only [get_parent_directory_node_of_given_path] at h ⊢
  by_cases hp : p = ""
  · rw [if_pos hp] at h
    exact absurd h (by simp)
  · rw [if_neg hp] at h ⊢
    generalize hcomp : path_str_to_iter_and_without_last_component p = cres at h ⊢
    cases cres with
    | error e =>
      simp only [] at h
      exact absurd h (by simp)
    | ok comps =>
      simp only [] at h ⊢
      cases comps with
      | nil => exact h
      | cons c rest =>
        simp only [] at h ⊢
        cases hst : (if is_absolute_path p then EntryRef.dir rootId else cwdRef) with
        | dir i =>
          rw [hst] at h
          simp only [] at h ⊢
          exact hsearch rest i c pref h hr
        | file g =>
          rw [hst] at h
          simp only [] at h
          exact absurd h (by simp)
        | rootSentinel =>
          rw [hst] at h
          simp only [] at h ⊢
          exact h

/-! ## Descriptor operations ignore the directory tree -/

theorem setFileSize_dirs (fs : FS) (D : List (Nat × DirNode)) (fid n : Nat) :
    setFileSize { fs with dirs := D } fid n = { setFileSize fs fid n with dirs := D } := by
  simp only [setFileSize]
  cases h : lookupA fs.files fid <;> simp [h]

theorem maxFileSize_dirs (fs : FS) (D : List (Nat × DirNode)) (fid n : Nat) :
    maxFileSize { fs with dirs := D } fid n = { maxFileSize fs fid n with dirs := D } := by
  simp only [maxFileSize]
  cases h : lookupA fs.files fid <;> simp [h]

theorem copyFileData_dirs (fs : FS) (D : List (Nat × DirNode)) (fid start : Nat)
    (bytes : List Nat) :
    copyFileData { fs with dirs := D } fid start bytes =
      { copyFileData fs fid start bytes with dirs := D } := by
  simp only [copyFileData]
  cases h : lookupA fs.files fid <;> simp [h]

theorem setFdOffset_dirs (fs : FS) (D : List (Nat × DirNode)) (fd n : Nat) :
    setFdOffset { fs with dirs := D } fd n = { setFdOffset fs fd n with dirs := D } := by
  simp only [setFdOffset]
  cases h : lookupA fs.fds fd <;> simp [h]

/-- `read` depends only on the descriptor table and file heap: changing the
directory tree changes neither its result nor its effect. -/
theorem readOp_dirs_congr (fs : FS) (D : List (Nat × DirNode)) (fd bufLen size : Nat) :
    readOp { fs with dirs := D } fd bufLen size =
      ((readOp fs fd bufLen size).1, { (readOp fs fd bufLen size).2 with dirs := D }) := by
  simp only [readOp]
  cases hfd : lookupA fs.fds fd with
  | none => simp [hfd]
  | some d =>
    simp only [hfd, read_file]
    by_cases hw : containsF d.flag O_WRONLY = true
    · simp [hw]
    · simp only [Bool.not_eq_true] at hw
      simp only [hw, Bool.false_eq_true, if_false]
      cases he : d.entry with
      | dir i => simp [he]
      | rootSentinel => simp [he]
      | file fid =>
        simp only [he]
        cases hf : lookupA fs.files fid with
        | none => simp [hf]
        | some f =>
          simp only [hf]
          by_cases hb : bufLen < min (d.file_offset + size) f.size - d.file_offset
          · simp [hb]
          · simp [hb]

/-- `write` depends only on the descriptor table and file heap. -/
theorem writeOp_dirs_congr (fs : FS) (D : List (Nat × DirNode)) (fd : Nat)
    (buffer : List Nat) (size : Nat) :
    writeOp { fs with dirs := D } fd buffer size =
      ((writeOp fs fd buffer size).1, { (writeOp fs fd buffer size).2 with dirs := D }) := by
  simp only [writeOp]
  cases hfd : lookupA fs.fds fd with
  | none => simp [hfd]
  | some d =>
    simp only [hfd, write_file]
    by_cases hw : containsF d.flag O_RDONLY = true
    · simp [hw]
    · simp only [Bool.not_eq_true] at hw
      simp only [hw, Bool.false_eq_true, if_false]
      cases he : d.entry with
      | dir i => simp [he]
      | rootSentinel => simp [he]
      | file fid =>
        simp only [he]
        cases hf : lookupA fs.files fid with
        | none => simp [hf]
        | some f =>
          simp only [hf]
          by_cases hap : containsF d.flag O_APPEND = true
          · simp only [hap, if_true]
            by_cases hbig : FILE_MAX_SIZE < f.size + min size buffer.length
            · simp [hbig]
            · simp only [if_neg hbig]
              rw [setFileSize_dirs, copyFileData_dirs, setFdOffset_dirs]
          · simp only [Bool.not_eq_true] at hap
            simp only [hap, Bool.false_eq_true, if_false]
            by_cases hbig : FILE_MAX_SIZE < d.file_offset + min size buffer.length
            · simp [hbig]
            · simp only [if_neg hbig]
              rw [maxFileSize_dirs, copyFileData_dirs, setFdOffset_dirs]

/-- `lseek` depends only on the descriptor table and file heap. -/
theorem seekOp_dirs_congr (fs : FS) (D : List (Nat × DirNode)) (fd offset : Nat)
    (whence : SeekFlag) :
    seekOp { fs with dirs := D } fd offset whence =
      ((seekOp fs fd offset whence).1, { (seekOp fs fd offset whence).2 with dirs := D }) := by
  simp only [seekOp]
  cases hfd : lookupA fs.fds fd with
  | none => simp [hfd]
  | some d =>
    simp only [hfd, seek_file]
    cases he : d.entry with
    | dir i => simp [he]
    | rootSentinel => simp [he]
    | file fid =>
      simp only [he]
      cases hf : lookupA fs.files fid with
      | none => simp [hf]
      | some f => simp [hf]

/-! ## C6: the unlink frame theorem -/

/-- C6.  A successful `unlink(p)` of a file removes exactly the binding of
the last component from its parent directory's children map and changes
nothing else: the file heap, descriptor table, descriptor counter, pool, cwd
and root are untouched.  Afterwards every `open(p, flags)` with a valid mode
and without `O_CREAT` returns `ENOENT`, while every previously opened
descriptor remains fully usable — `read`, `write` and `lseek` return the
same results and perform the same file/descriptor updates as they would have
before the unlink, on the same contents, sizes and offsets. -/
theorem unlink_frame (fs : FS) (p l : String) (did fid : Nat) (d0 : DirNode)
    (pref : EntryRef) (flag : Nat) (fs2 : FS)
    (hpar : get_parent_directory_node_of_given_path fs.dirs fs.rootId fs.cwdRef p = .ok pref)
    (hpd : pref = .dir did ∨ (pref = .rootSentinel ∧ did = fs.rootId))
    (hlast : get_last_component_of_path p = .ok l)
    (hd0 : lookupA fs.dirs did = some d0)
    (hfile : lookupA d0.children l = some (.file fid))
    (hnodup : keysNodup d0.children)
    (hm : check_mode_exclusiveness flag = true)
    (hnc : containsF flag O_CREAT = false)
    (hfs2 : fs2 = { fs with dirs := insertA fs.dirs did { d0 with children := eraseA d0.children l } }) :
    unlinkOp fs p = (.ok (), fs2) ∧
    (openFine fs2 p flag).1 = .error .ENOENT ∧
    fs2.files = fs.files ∧ fs2.fds = fs.fds ∧ fs2.fdCount = fs.fdCount ∧
    fs2.pool = fs.pool ∧ fs2.cwdRef = fs.cwdRef ∧ fs2.rootId = fs.rootId ∧
    (∀ fd bufLen size, readOp fs2 fd bufLen size =
       ((readOp fs fd bufLen size).1, { (readOp fs fd bufLen size).2 with dirs := fs2.dirs })) ∧
    (∀ fd buffer size, writeOp fs2 fd buffer size =
       ((writeOp fs fd buffer size).1, { (writeOp fs fd buffer size).2 with dirs := fs2.dirs })) ∧
    (∀ fd offset whence, seekOp fs2 fd offset whence =
       ((seekOp fs fd offset whence).1, { (seekOp fs fd offset whence).2 with dirs := fs2.dirs })) := by
  have hprefnf : ∀ g, pref ≠ .file g := by
    intro g hg
    rcases hpd with h1 | ⟨h1, _⟩ <;> rw [h1] at hg <;> exact EntryRef.noConfusion hg
  have hpar2 : get_parent_directory_node_of_given_path fs2.dirs fs2.rootId fs2.cwdRef p =
      .ok pref := by
    rw [hfs2]
    exact get_parent_erase_file fs.dirs fs.rootId fs.cwdRef did d0 l fid p pref
      hd0 hfile hpar hprefnf
  have hlook2 : lookupA fs2.dirs did = some { d0 with children := eraseA d0.children l } := by
    rw [hfs2]
    rw [lookupA_insertA]
    simp
  have hvac2 : lookupA (eraseA d0.children l) l = none :=
    lookupA_eraseA_self d0.children l hnodup
  refine ⟨?_, ?_, by rw [hfs2], by rw [hfs2], by rw [hfs2], by rw [hfs2],
    by rw [hfs2], by rw [hfs2], ?_, ?_, ?_⟩
  · simp only [unlinkOp, hpar, hlast]
    rcases hpd with h1 | ⟨h1, h2⟩
    · subst h1
      simp only [remove_file, hd0, hfile]
      rw [hfs2]
    · subst h1
      subst h2
      simp only [remove_file, hd0, hfile]
      rw [hfs2]
  · simp only [openFine, hm, Bool.not_true, Bool.false_eq_true, if_false, hpar2, hlast]
    have hres : resolve_dir_and_entry_id fs2.rootId pref = .ok did := by
      rcases hpd with h1 | ⟨h1, h2⟩
      · rw [h1]
        rfl
      · rw [h1, hfs2]
        simp only [resolve_dir_and_entry_id]
        rw [h2]
    simp only [hres, hlook2, hvac2, hnc, Bool.false_eq_true, if_false]
  · intro fd bufLen size
    rw [hfs2]
    exact readOp_dirs_congr fs _ fd bufLen size
  · intro fd buffer size
    rw [hfs2]
    exact writeOp_dirs_congr fs _ fd buffer size
  · intro fd offset whence
    rw [hfs2]
    exact seekOp_dirs_congr fs _ fd offset whence

/-- A filesystem with a file `/b` (id 1) opened read-only as descriptor 0. -/
def exB : FS := (openFine initFS "/b" (O_CREAT ||| O_RDONLY)).2

/-- The root directory node of `exB`. -/
def rootB : DirNode := { parent := none, children := [("b", .file 1)] }

/-- `exB` after unlinking `/b`. -/
def exB2 : FS :=
  { exB with dirs := insertA exB.dirs 0 { rootB with children := eraseA rootB.children "b" } }

/-- Witness for C6 on `exB`: unlinking `/b` leaves descriptor 0 fully usable
and makes a re-open without `O_CREAT` fail with `ENOENT`. -/
theorem unlink_frame_witness :
    (get_parent_directory_node_of_given_path exB.dirs exB.rootId exB.cwdRef "/b" =
       .ok (.dir 0) ∧
     ((EntryRef.dir 0 : EntryRef) = .dir 0 ∨
       ((EntryRef.dir 0 : EntryRef) = .rootSentinel ∧ (0 : Nat) = exB.rootId)) ∧
     get_last_component_of_path "/b" = .ok "b" ∧
     lookupA exB.dirs 0 = some rootB ∧
     lookupA rootB.children "b" = some (.file 1) ∧
     keysNodup rootB.children ∧
     check_mode_exclusiveness O_RDONLY = true ∧
     containsF O_RDONLY O_CREAT = false ∧
     exB2 = { exB with dirs := insertA exB.dirs 0 { rootB with children := eraseA rootB.children "b" } }) ∧
    (unlinkOp exB "/b" = (.ok (), exB2) ∧
     (openFine exB2 "/b" O_RDONLY).1 = .error .ENOENT ∧
     exB2.files = exB.files ∧ exB2.fds = exB.fds ∧ exB2.fdCount = exB.fdCount ∧
     exB2.pool = exB.pool ∧ exB2.cwdRef = exB.cwdRef ∧ exB2.rootId = exB.rootId ∧
     (∀ fd bufLen size, readOp exB2 fd bufLen size =
        ((readOp exB fd bufLen size).1, { (readOp exB fd bufLen size).2 with dirs := exB2.dirs })) ∧
     (∀ fd buffer size, writeOp exB2 fd buffer size =
        ((writeOp exB fd buffer size).1, { (writeOp exB fd buffer size).2 with dirs := exB2.dirs })) ∧
     (∀ fd offset whence, seekOp exB2 fd offset whence =
        ((seekOp exB fd offset whence).1, { (seekOp exB fd offset whence).2 with dirs := exB2.dirs }))) :=
  ⟨⟨by decide, by decide, by decide, by decide, by decide,
    by unfold keysNodup; decide, by decide, by decide, by decide⟩,
   unlink_frame exB "/b" "b" 0 1 rootB (.dir 0) O_RDONLY exB2
     (by decide) (by decide) (by decide) (by decide) (by decide)
     (by unfold keysNodup; decide) (by decide) (by decide) (by decide)⟩

/-! ## C8: size and offset bounds in every reachable state -/

theorem isSome_insertA {κ α : Type} [DecidableEq κ] (m : List (κ × α))
    (k k' : κ) (v : α) (h : (lookupA m k').isSome) :
    (lookupA (insertA m k v) k').isSome := by
  rw [lookupA_insertA]
  by_cases hk : k' = k <;> simp [hk, h]

/-- A successful resolution to a file reference always reads that reference
out of some directory's children map. -/
theorem search_ok_file_mem (dirs : List (Nat × DirNode)) :
    ∀ (rest : List String) (i : Nat) (c : String) (fid : Nat),
      search_entry_with_path dirs i c rest = .ok (.file fid) →
      ∃ q ∈ dirs, ∃ x ∈ (q.2 : DirNode).children, (x.2 : EntryRef) = .file fid := by
  intro rest
  induction rest with
  | nil =>
    intro i c fid h
    rw [search_entry_with_path.eq_def] at h
    cases hdi : lookupA dirs i with
    | none =>
      simp only [hdi] at h
      exact absurd h (by simp)
    | some di =>
      simp only [hdi] at h
      cases hcc : lookupA di.children c with
      | some v =>
        simp only [hcc] at h
        have hv : v = .file fid := Except.ok.inj h
        exact ⟨(i, di), lookupA_mem _ _ _ hdi, (c, v), lookupA_mem _ _ _ hcc, hv⟩
      | none =>
        simp only [hcc] at h
        by_cases hc2 : c = ".."
        · simp only [if_pos hc2] at h
          cases hp : di.parent with
          | none =>
            simp only [hp] at h
            exact absurd h (by simp)
          | some pid =>
            simp only [hp] at h
            by_cases hs : (lookupA dirs pid).isSome
            · simp only [if_pos hs] at h
              exact absurd h (by simp)
            · simp only [if_neg hs] at h
              exact absurd h (by simp)
        · simp only [if_neg hc2] at h
          exact absurd h (by simp)
  | cons r1 rs ih =>
    intro i c fid h
    rw [search_entry_with_path.eq_def] at h
    cases hdi : lookupA dirs i with
    | none =>
      simp only [hdi] at h
      exact absurd h (by simp)
    | some di =>
      simp only [hdi] at h
      cases hcc : lookupA di.children c with
      | some v =>
        simp only [hcc] at h
        cases v with
        | file g => exact absurd h (by simp)
        | rootSentinel => exact absurd h (by simp)
        | dir j =>
          simp only [] at h
          exact ih j r1 fid h
      | none =>
        simp only [hcc] at h
        by_cases hc2 : c = ".."
        · simp only [if_pos hc2] at h
          cases hp : di.parent with
          | none =>
            simp only [hp] at h
            exact ih i r1 fid h
          | some pid =>
            simp only [hp] at h
            exact ih pid r1 fid h
        · simp only [if_neg hc2] at h
          exact absurd h (by simp)

/-- Full-path resolution to a file reference reads it out of some children
map, provided the cwd reference is not itself a dangling file. -/
theorem get_node_ok_file_mem (dirs : List (Nat × DirNode)) (rootId : Nat)
    (cwdRef : EntryRef) (p : String) (fid : Nat)
    (hcwd : ∀ g, cwdRef ≠ EntryRef.file g)
    (h : get_node_of_given_path dirs rootId cwdRef p = .ok (.file fid)) :
    ∃ q ∈ dirs, ∃ x ∈ (q.2 : DirNode).children, (x.2 : EntryRef) = .file fid := by
  simp only [get_node_of_given_path] at h
  by_cases hp : p = ""
  · rw [if_pos hp] at h
    exact absurd h (by simp)
  · rw [if_neg hp] at h
    generalize hcomp : path_str_to_iter p = cres at h
    cases cres with
    | error e =>
      simp only [] at h
      exact absurd h (by simp)
    | ok comps =>
      simp only [] at h
      cases comps with
      | nil =>
        by_cases habs : is_absolute_path p = true
        · rw [if_pos habs] at h
          exact absurd h (by simp)
        · rw [if_neg habs] at h
          exact absurd (Except.ok.inj h) (hcwd fid)
      | cons c rest =>
        simp only [] at h
        cases hst : (if is_absolute_path p then EntryRef.dir rootId else cwdRef) with
        | dir i =>
          rw [hst] at h
          simp only [] at h
          exact search_ok_file_mem dirs rest i c fid h
        | file g =>
          rw [hst] at h
          simp only [] at h
          exact absurd h (by simp)
        | rootSentinel =>
          rw [hst] at h
          simp only [] at h
          exact absurd h (by simp)

/-- The invariant C8 states: every file's logical size is bounded by
`FILE_MAX_SIZE`, and every descriptor targets a live file whose current size
bounds the descriptor's offset.  (The lower bounds `0 ≤ _` of the claim are
automatic for `Nat`.) -/
def SizeOffsetInv (fs : FS) : Prop :=
  (∀ q ∈ fs.files, (q.2 : FileNode).size ≤ FILE_MAX_SIZE) ∧
  (∀ q ∈ fs.fds, ∃ fid f, (q.2 : Desc).entry = .file fid ∧
     lookupA fs.files fid = some f ∧ (q.2 : Desc).file_offset ≤ f.size)

/-- Inductive strengthening of `SizeOffsetInv`: additionally, every file
buffer keeps its physical length `FILE_MAX_SIZE`, file heap keys stay below
the allocation counter (so fresh ids never collide), every file reference
stored in a children map is live, and the cwd reference is a directory. -/
def InvFull (fs : FS) : Prop :=
  (∀ q ∈ fs.files, (q.2 : FileNode).size ≤ FILE_MAX_SIZE ∧
     (q.2 : FileNode).data.length = FILE_MAX_SIZE) ∧
  (∀ q ∈ fs.fds, ∃ fid f, (q.2 : Desc).entry = .file fid ∧
     lookupA fs.files fid = some f ∧ (q.2 : Desc).file_offset ≤ f.size) ∧
  (∀ q ∈ fs.files, (q.1 : Nat) < fs.nextId) ∧
  (∀ q ∈ fs.dirs, ∀ x ∈ (q.2 : DirNode).children, ∀ g,
     (x.2 : EntryRef) = .file g → (lookupA fs.files g).isSome) ∧
  (∃ j, fs.cwdRef = EntryRef.dir j)

theorem InvFull_init : InvFull initFS := by
  refine ⟨?_, ?_, ?_, ?_, ⟨0, rfl⟩⟩ <;> simp [initFS]

theorem InvFull_insert_fd (fs1 : FS) (fid fd fl : Nat) (h1 : InvFull fs1)
    (hfid : (lookupA fs1.files fid).isSome) :
    InvFull { fs1 with
              fds := insertA fs1.fds fd { flag := fl, file_offset := 0, entry := .file fid }
              fdCount := fs1.fdCount + 1 } := by
  obtain ⟨hA, hB, hC, hD, hE⟩ := h1
  obtain ⟨f, hf⟩ := Option.isSome_iff_exists.mp hfid
  refine ⟨hA, ?_, hC, hD, hE⟩
  intro q hq
  rcases mem_insertA _ _ _ _ hq with h1 | h1
  · subst h1
    exact ⟨fid, f, rfl, hf, Nat.zero_le _⟩
  · exact hB q h1

theorem InvFull_closeOp (fs : FS) (fd : Nat) (h : InvFull fs) :
    InvFull (closeOp fs fd).2 := by
  unfold closeOp
  cases hfd : lookupA fs.fds fd with
  | none => exact h
  | some d =>
    obtain ⟨hA, hB, hC, hD, hE⟩ := h
    exact ⟨hA, fun q hq => hB q (mem_of_eraseA _ _ _ hq), hC, hD, hE⟩

theorem InvFull_chdirOp (fs : FS) (p : String) (h : InvFull fs) :
    InvFull (chdirOp fs p).2 := by
  unfold chdirOp
  obtain ⟨hA, hB, hC, hD, hE⟩ := h
  by_cases h0 : p = ""
  · rw [if_pos h0]
    exact ⟨hA, hB, hC, hD, hE⟩
  · rw [if_neg h0]
    by_cases h1 : p = "/"
    · rw [if_pos h1]
      exact ⟨hA, hB, hC, hD, fs.rootId, rfl⟩
    · rw [if_neg h1]
      cases hres : get_node_of_given_path fs.dirs fs.rootId fs.cwdRef p with
      | error e => exact ⟨hA, hB, hC, hD, hE⟩
      | ok r =>
        cases r with
        | dir i => exact ⟨hA, hB, hC, hD, i, rfl⟩
        | rootSentinel => exact ⟨hA, hB, hC, hD, fs.rootId, rfl⟩
        | file g => exact ⟨hA, hB, hC, hD, hE⟩

theorem InvFull_remove_file (fs : FS) (did : Nat) (name : String)
    (h : InvFull fs) : InvFull (remove_file fs did name).2 := by
  unfold remove_file
  obtain ⟨hA, hB, hC, hD, hE⟩ := h
  cases hd : lookupA fs.dirs did with
  | none => exact ⟨hA, hB, hC, hD, hE⟩
  | some d =>
    simp only []
    cases hc : lookupA d.children name with
    | none => exact ⟨hA, hB, hC, hD, hE⟩
    | some v =>
      simp only []
      cases v with
      | dir j => exact ⟨hA, hB, hC, hD, hE⟩
      | rootSentinel => exact ⟨hA, hB, hC, hD, hE⟩
      | file g =>
        simp only []
        refine ⟨hA, hB, hC, ?_, hE⟩
        intro q hq x hx g2 hg2
        rcases mem_insertA _ _ _ _ hq with h1 | h1
        · subst h1
          exact hD (did, d) (lookupA_mem _ _ _ hd) x (mem_of_eraseA _ _ _ hx) g2 hg2
        · exact hD q h1 x hx g2 hg2

theorem InvFull_unlinkOp (fs : FS) (p : String) (h : InvFull fs) :
    InvFull (unlinkOp fs p).2 := by
  unfold unlinkOp
  cases hpar : get_parent_directory_node_of_given_path fs.dirs fs.rootId fs.cwdRef p with
  | error e => exact h
  | ok pref =>
    simp only []
    cases hlast : get_last_component_of_path p with
    | error e => exact h
    | ok last =>
      simp only []
      cases pref with
      | dir i => exact InvFull_remove_file fs i last h
      | file g => exact h
      | rootSentinel => exact InvFull_remove_file fs fs.rootId last h

theorem InvFull_remove_directory (fs : FS) (did : Nat) (name : String)
    (h : InvFull fs) : InvFull (remove_directory fs did name).2 := by
  unfold remove_directory
  obtain ⟨hA, hB, hC, hD, hE⟩ := h
  cases hd : lookupA fs.dirs did with
  | none => exact ⟨hA, hB, hC, hD, hE⟩
  | some d =>
    simp only []
    cases hc : lookupA d.children name with
    | none => exact ⟨hA, hB, hC, hD, hE⟩
    | some v =>
      simp only []
      cases v with
      | file g => exact ⟨hA, hB, hC, hD, hE⟩
      | rootSentinel => exact ⟨hA, hB, hC, hD, hE⟩
      | dir j =>
        simp only []
        cases hdj : lookupA fs.dirs j with
        | none => exact ⟨hA, hB, hC, hD, hE⟩
        | some dj =>
          simp only []
          by_cases hemp : dj.children.isEmpty
          · rw [if_pos hemp]
            refine ⟨hA, hB, hC, ?_, hE⟩
            intro q hq x hx g2 hg2
            rcases mem_insertA _ _ _ _ hq with h1 | h1
            · subst h1
              exact hD (did, d) (lookupA_mem _ _ _ hd) x (mem_of_eraseA _ _ _ hx) g2 hg2
            · exact hD q h1 x hx g2 hg2
          · rw [if_neg hemp]
            exact ⟨hA, hB, hC, hD, hE⟩

theorem InvFull_rmdirOp (fs : FS) (p : String) (h : InvFull fs) :
    InvFull (rmdirOp fs p).2 := by
  unfold rmdirOp
  by_cases h0 : p = "/"
  · rw [if_pos h0]
    exact h
  · rw [if_neg h0]
    cases hpar : get_parent_directory_node_of_given_path fs.dirs fs.rootId fs.cwdRef p with
    | error e => exact h
    | ok pref =>
      simp only []
      cases hlast : get_last_component_of_path p with
      | error e => exact h
      | ok last =>
        simp only []
        by_cases h1 : last = "."
        · rw [if_pos h1]
          exact h
        · rw [if_neg h1]
          by_cases h2 : last = ".."
          · rw [if_pos h2]
            exact h
          · rw [if_neg h2]
            cases pref with
            | dir i => exact InvFull_remove_directory fs i last h
            | file g => exact h
            | rootSentinel => exact h

theorem InvFull_create_new_directory (fs : FS) (did : Nat) (name : String)
    (h : InvFull fs) : InvFull (create_new_directory fs did name).2 := by
  unfold create_new_directory
  obtain ⟨hA, hB, hC, hD, hE⟩ := h
  cases hd : lookupA fs.dirs did with
  | none => exact ⟨hA, hB, hC, hD, hE⟩
  | some d =>
    simp only []
    cases hc : lookupA d.children name with
    | some v => exact ⟨hA, hB, hC, hD, hE⟩
    | none =>
      simp only []
      refine ⟨hA, hB, fun q hq => Nat.lt_succ_of_lt (hC q hq), ?_, hE⟩
      intro q hq x hx g2 hg2
      rcases mem_insertA _ _ _ _ hq with h1 | h1
      · subst h1
        simp only [List.not_mem_nil] at hx
      · rcases mem_insertA _ _ _ _ h1 with h2 | h2
        · subst h2
          rcases mem_insertA _ _ _ _ hx with h3 | h3
          · subst h3
            exact absurd hg2 (by simp)
          · exact hD (did, d) (lookupA_mem _ _ _ hd) x h3 g2 hg2
        · exact hD q h2 x hx g2 hg2

theorem InvFull_mkdirOp (fs : FS) (p : String) (h : InvFull fs) :
    InvFull (mkdirOp fs p).2 := by
  unfold mkdirOp
  by_cases h0 : p = "/"
  · rw [if_pos h0]
    exact h
  · rw [if_neg h0]
    cases hpar : get_parent_directory_node_of_given_path fs.dirs fs.rootId fs.cwdRef p with
    | error e => exact h
    | ok pref =>
      simp only []
      cases hlast : get_last_component_of_path p with
      | error e => exact h
      | ok last =>
        simp only []
        by_cases h1 : last = "." ∨ last = ".."
        · rw [if_pos h1]
          exact h
        · rw [if_neg h1]
          cases pref with
          | dir i => exact InvFull_create_new_directory fs i last h
          | file g => exact h
          | rootSentinel => exact h

theorem InvFull_seekOp (fs : FS) (fd offset : Nat) (whence : SeekFlag)
    (h : InvFull fs) : InvFull (seekOp fs fd offset whence).2 := by
  unfold seekOp seek_file
  obtain ⟨hA, hB, hC, hD, hE⟩ := h
  cases hfd : lookupA fs.fds fd with
  | none => exact ⟨hA, hB, hC, hD, hE⟩
  | some d =>
    simp only []
    cases he : d.entry with
    | dir i => exact ⟨hA, hB, hC, hD, hE⟩
    | rootSentinel => exact ⟨hA, hB, hC, hD, hE⟩
    | file fid =>
      simp only []
      cases hf : lookupA fs.files fid with
      | none => exact ⟨hA, hB, hC, hD, hE⟩
      | some f =>
        simp only []
        refine ⟨hA, ?_, hC, hD, hE⟩
        intro q hq
        rcases mem_insertA _ _ _ _ hq with h1 | h1
        · subst h1
          exact ⟨fid, f, rfl, hf, Nat.min_le_left _ _⟩
        · exact hB q h1

theorem InvFull_readOp (fs : FS) (fd bufLen size : Nat) (h : InvFull fs) :
    InvFull (readOp fs fd bufLen size).2 := by
  unfold readOp read_file
  obtain ⟨hA, hB, hC, hD, hE⟩ := h
  cases hfd : lookupA fs.fds fd with
  | none => exact ⟨hA, hB, hC, hD, hE⟩
  | some d =>
    simp only []
    by_cases hw : containsF d.flag O_WRONLY = true
    · simp only [hw, if_true]
      exact ⟨hA, hB, hC, hD, hE⟩
    · simp only [Bool.not_eq_true] at hw
      simp only [hw, Bool.false_eq_true, if_false]
      cases he : d.entry with
      | dir i => exact ⟨hA, hB, hC, hD, hE⟩
      | rootSentinel => exact ⟨hA, hB, hC, hD, hE⟩
      | file fid =>
        simp only []
        cases hf : lookupA fs.files fid with
        | none => exact ⟨hA, hB, hC, hD, hE⟩
        | some f =>
          simp only []
          by_cases hb : bufLen < min (d.file_offset + size) f.size - d.file_offset
          · rw [if_pos hb]
            exact ⟨hA, hB, hC, hD, hE⟩
          · rw [if_neg hb]
            refine ⟨hA, ?_, hC, hD, hE⟩
            intro q hq
            rcases mem_insertA _ _ _ _ hq with h1 | h1
            · subst h1
              refine ⟨fid, f, rfl, hf, ?_⟩
              obtain ⟨fid0, f0, hent, hlook, hoff⟩ := hB (fd, d) (lookupA_mem _ _ _ hfd)
              have hfid0 : fid0 = fid := by
                rw [he] at hent
                exact (EntryRef.file.inj hent).symm
              subst hfid0
              rw [hf] at hlook
              have hf0 : f = f0 := Option.some.inj hlook
              subst hf0
              have hm1 : min (d.file_offset + size) f.size ≤ f.size := Nat.min_le_right _ _
              have hm2 : d.file_offset ≤ min (d.file_offset + size) f.size :=
                Nat.le_min.mpr ⟨Nat.le_add_right _ _, hoff⟩
              simp only []
              omega
            · exact hB q h1


/-! ## Invariant preservation: `write` -/

/-- The state produced by a successful `write_file` body — size store (or
`fetch_max`), byte copy, offset store — preserves the full invariant, for any
stored size `n` that bounds the old size, the stored offset and the copied
range. -/
theorem InvFull_write_record (fs : FS) (fd fid n e S : Nat) (d : Desc)
    (f : FileNode) (bytes : List Nat) (h : InvFull fs)
    (hfd : lookupA fs.fds fd = some d) (he : d.entry = EntryRef.file fid)
    (hf : lookupA fs.files fid = some f)
    (hn : n ≤ FILE_MAX_SIZE) (hfn : f.size ≤ n) (hen : e ≤ n)
    (hsb : S + bytes.length ≤ FILE_MAX_SIZE) :
    InvFull (setFdOffset
      (copyFileData { fs with files := insertA fs.files fid { f with size := n } }
        fid S bytes) fd e) := by
  have hstep : setFdOffset
      (copyFileData { fs with files := insertA fs.files fid { f with size := n } }
        fid S bytes) fd e
      = { fs with
          files := insertA (insertA fs.files fid { f with size := n }) fid
                     { size := n, data := writeRange f.data S bytes }
          fds := insertA fs.fds fd { d with file_offset := e } } := by
    simp [copyFileData, setFdOffset, lookupA_insertA, hfd]
  rw [hstep]
  obtain ⟨hA, hB, hC, hD, hE⟩ := h
  obtain ⟨hs0, hl0⟩ := hA (fid, f) (lookupA_mem _ _ _ hf)
  have hwl : (writeRange f.data S bytes).length = FILE_MAX_SIZE := by
    rw [writeRange_length]
    · exact hl0
    · rw [hl0]
      exact hsb
  have hlookB : lookupA (insertA (insertA fs.files fid { f with size := n }) fid
      { size := n, data := writeRange f.data S bytes }) fid
      = some { size := n, data := writeRange f.data S bytes } := by
    rw [lookupA_insertA]
    simp
  have hlookNe : ∀ g, g ≠ fid →
      lookupA (insertA (insertA fs.files fid { f with size := n }) fid
        { size := n, data := writeRange f.data S bytes }) g = lookupA fs.files g := by
    intro g hg
    rw [lookupA_insertA, if_neg hg, lookupA_insertA, if_neg hg]
  refine ⟨?_, ?_, ?_, ?_, hE⟩
  · intro q hq
    rcases mem_insertA _ _ _ _ hq with h1 | h1
    · subst h1
      exact ⟨hn, hwl⟩
    · rcases mem_insertA _ _ _ _ h1 with h2 | h2
      · subst h2
        exact ⟨hn, hl0⟩
      · exact hA q h2
  · intro q hq
    rcases mem_insertA _ _ _ _ hq with h1 | h1
    · subst h1
      exact ⟨fid, _, he, hlookB, hen⟩
    · obtain ⟨fid0, f0, hent, hlook, hoff⟩ := hB q h1
      by_cases hg : fid0 = fid
      · subst hg
        refine ⟨fid0, _, hent, hlookB, ?_⟩
        rw [hf] at hlook
        have hff : f = f0 := Option.some.inj hlook
        subst hff
        exact le_trans hoff hfn
      · exact ⟨fid0, f0, hent, by rw [hlookNe fid0 hg]; exact hlook, hoff⟩
  · intro q hq
    rcases mem_insertA _ _ _ _ hq with h1 | h1
    · subst h1
      exact hC (fid, f) (lookupA_mem _ _ _ hf)
    · rcases mem_insertA _ _ _ _ h1 with h2 | h2
      · subst h2
        exact hC (fid, f) (lookupA_mem _ _ _ hf)
      · exact hC q h2
  · intro q hq x hx g hg
    by_cases hgf : g = fid
    · subst hgf
      rw [hlookB]
      rfl
    · rw [hlookNe g hgf]
      exact hD q hq x hx g hg

theorem InvFull_writeOp (fs : FS) (fd : Nat) (buffer : List Nat) (size : Nat)
    (h : InvFull fs) : InvFull (writeOp fs fd buffer size).2 := by
  unfold writeOp write_file
  cases hfd : lookupA fs.fds fd with
  | none => exact h
  | some d =>
    simp only []
    by_cases hr : containsF d.flag O_RDONLY = true
    · simp only [hr, if_true]
      exact h
    · simp only [Bool.not_eq_true] at hr
      simp only [hr, Bool.false_eq_true, if_false]
      cases he : d.entry with
      | dir i => exact h
      | rootSentinel => exact h
      | file fid =>
        simp only []
        cases hf : lookupA fs.files fid with
        | none => exact h
        | some f =>
          simp only []
          have hlen : (buffer.take (min size buffer.length)).length
              = min size buffer.length := by
            rw [List.length_take]
            exact Nat.min_eq_left (Nat.min_le_right _ _)
          by_cases hap : containsF d.flag O_APPEND = true
          · simp only [hap, if_true]
            by_cases hbig : FILE_MAX_SIZE < f.size + min size buffer.length
            · rw [if_pos hbig]
              exact h
            · rw [if_neg hbig]
              simp only []
              have hset : setFileSize fs fid (f.size + min size buffer.length) = { fs with files := insertA fs.files fid { f with size := f.size + min size buffer.length } } := by
                simp [setFileSize, hf]
              rw [hset]
              exact InvFull_write_record fs fd fid (f.size + min size buffer.length)
                (f.size + min size buffer.length) f.size d f
                (buffer.take (min size buffer.length)) h hfd he hf
                (Nat.le_of_not_lt hbig) (Nat.le_add_right _ _) (le_refl _)
                (by rw [hlen]; exact Nat.le_of_not_lt hbig)
          · simp only [Bool.not_eq_true] at hap
            simp only [hap, Bool.false_eq_true, if_false]
            by_cases hbig : FILE_MAX_SIZE < d.file_offset + min size buffer.length
            · rw [if_pos hbig]
              exact h
            · rw [if_neg hbig]
              simp only []
              have hset : maxFileSize fs fid (d.file_offset + min size buffer.length) = { fs with files := insertA fs.files fid { f with size := max f.size (d.file_offset + min size buffer.length) } } := by
                simp [maxFileSize, hf]
              rw [hset]
              have hsmax : f.size ≤ FILE_MAX_SIZE :=
                (h.1 (fid, f) (lookupA_mem _ _ _ hf)).1
              exact InvFull_write_record fs fd fid
                (max f.size (d.file_offset + min size buffer.length))
                (d.file_offset + min size buffer.length) d.file_offset d f
                (buffer.take (min size buffer.length)) h hfd he hf
                (max_le hsmax (Nat.le_of_not_lt hbig)) (le_max_left _ _)
                (le_max_right _ _)
                (by rw [hlen]; exact Nat.le_of_not_lt hbig)

/-! ## Invariant preservation: `open` (fine-grained) -/

theorem InvFull_openFine (fs : FS) (p : String) (fl : Nat) (h : InvFull fs) :
    InvFull (openFine fs p fl).2 := by
  unfold openFine
  cases hm : check_mode_exclusiveness fl with
  | false =>
    simp only [Bool.not_false, if_true]
    exact h
  | true =>
    simp only [Bool.not_true, Bool.false_eq_true, if_false]
    cases hpar : get_parent_directory_node_of_given_path fs.dirs fs.rootId fs.cwdRef p with
    | error e => exact h
    | ok pref =>
      simp only []
      cases hlast : get_last_component_of_path p with
      | error e => exact h
      | ok last =>
        simp only []
        cases hres : resolve_dir_and_entry_id fs.rootId pref with
        | error e => exact h
        | ok did =>
          simp only []
          cases hd : lookupA fs.dirs did with
          | none => exact h
          | some d =>
            simp only []
            cases hc : lookupA d.children last with
            | none =>
              simp only []
              by_cases hcr : containsF fl O_CREAT = true
              · simp only [hcr, if_true]
                by_cases hp : fs.pool = 0
                · rw [if_pos hp]
                  exact h
                · rw [if_neg hp]
                  simp only []
                  obtain ⟨hA, hB, hC, hD, hE⟩ := h
                  have hlookNew : lookupA (insertA fs.files fs.nextId
                      { size := 0, data := List.replicate FILE_MAX_SIZE 0 }) fs.nextId
                      = some { size := 0, data := List.replicate FILE_MAX_SIZE 0 } := by
                    rw [lookupA_insertA]
                    simp
                  have hlookOld : ∀ g, g ≠ fs.nextId →
                      lookupA (insertA fs.files fs.nextId
                        { size := 0, data := List.replicate FILE_MAX_SIZE 0 }) g
                      = lookupA fs.files g := by
                    intro g hg
                    rw [lookupA_insertA, if_neg hg]
                  refine ⟨?_, ?_, ?_, ?_, hE⟩
                  · intro q hq
                    rcases mem_insertA _ _ _ _ hq with h1 | h1
                    · subst h1
                      exact ⟨Nat.zero_le _, List.length_replicate _ _⟩
                    · exact hA q h1
                  · intro q hq
                    rcases mem_insertA _ _ _ _ hq with h1 | h1
                    · subst h1
                      exact ⟨fs.nextId, _, rfl, hlookNew, Nat.zero_le _⟩
                    · obtain ⟨fid0, f0, hent, hlook, hoff⟩ := hB q h1
                      have hne : fid0 ≠ fs.nextId := by
                        intro hcon
                        have := hC (fid0, f0) (lookupA_mem _ _ _ hlook)
                        rw [hcon] at this
                        exact absurd this (lt_irrefl _)
                      exact ⟨fid0, f0, hent, by rw [hlookOld fid0 hne]; exact hlook, hoff⟩
                  · intro q hq
                    rcases mem_insertA _ _ _ _ hq with h1 | h1
                    · subst h1
                      exact Nat.lt_succ_self _
                    · exact Nat.lt_succ_of_lt (hC q h1)
                  · intro q hq x hx g hg
                    by_cases hgn : g = fs.nextId
                    · subst hgn
                      rw [hlookNew]
                      rfl
                    · rw [hlookOld g hgn]
                      rcases mem_insertA _ _ _ _ hq with h1 | h1
                      · subst h1
                        rcases mem_insertA _ _ _ _ hx with h2 | h2
                        · subst h2
                          exact absurd (EntryRef.file.inj hg).symm hgn
                        · exact hD (did, d) (lookupA_mem _ _ _ hd) x h2 g hg
                      · exact hD q h1 x hx g hg
              · simp only [Bool.not_eq_true] at hcr
                simp only [hcr, Bool.false_eq_true, if_false]
                exact h
            | some v =>
              simp only []
              by_cases hex : containsF fl (O_CREAT ||| O_EXCL) = true
              · simp only [hex, if_true]
                exact h
              · simp only [Bool.not_eq_true] at hex
                simp only [hex, Bool.false_eq_true, if_false]
                cases v with
                | dir j => exact h
                | rootSentinel => exact h
                | file fid =>
                  simp only []
                  have hsome : (lookupA fs.files fid).isSome :=
                    h.2.2.2.1 (did, d) (lookupA_mem _ _ _ hd)
                      (last, EntryRef.file fid) (lookupA_mem _ _ _ hc) fid rfl
                  exact InvFull_insert_fd fs fid fs.fdCount (withoutF fl O_CREAT) h hsome

/-! ## Invariant preservation: `open` (coarse-grained) -/

/-- The invariant never mentions the buffer pool, so pool pops are free. -/
theorem InvFull_pool (fs : FS) (p : Nat) (h : InvFull fs) :
    InvFull { fs with pool := p } := by
  obtain ⟨hA, hB, hC, hD, hE⟩ := h
  exact ⟨hA, hB, hC, hD, hE⟩

theorem InvFull_create_new_file (fs : FS) (did : Nat) (name : String)
    (flagExcl : Nat) (h : InvFull fs) :
    InvFull (create_new_file fs did name flagExcl).2 := by
  unfold create_new_file
  cases hd : lookupA fs.dirs did with
  | none => exact h
  | some d =>
    simp only []
    cases hc : lookupA d.children name with
    | some v =>
      simp only []
      by_cases hex : containsF flagExcl O_EXCL = true
      · simp only [hex, if_true]
        exact h
      · simp only [Bool.not_eq_true] at hex
        simp only [hex, Bool.false_eq_true, if_false]
        exact h
    | none =>
      simp only []
      obtain ⟨hA, hB, hC, hD, hE⟩ := h
      have hlookNew : lookupA (insertA fs.files fs.nextId
          { size := 0, data := List.replicate FILE_MAX_SIZE 0 }) fs.nextId
          = some { size := 0, data := List.replicate FILE_MAX_SIZE 0 } := by
        rw [lookupA_insertA]
        simp
      have hlookOld : ∀ g, g ≠ fs.nextId →
          lookupA (insertA fs.files fs.nextId
            { size := 0, data := List.replicate FILE_MAX_SIZE 0 }) g
          = lookupA fs.files g := by
        intro g hg
        rw [lookupA_insertA, if_neg hg]
      refine ⟨?_, ?_, ?_, ?_, hE⟩
      · intro q hq
        rcases mem_insertA _ _ _ _ hq with h1 | h1
        · subst h1
          exact ⟨Nat.zero_le _, List.length_replicate _ _⟩
        · exact hA q h1
      · intro q hq
        obtain ⟨fid0, f0, hent, hlook, hoff⟩ := hB q hq
        have hne : fid0 ≠ fs.nextId := by
          intro hcon
          have := hC (fid0, f0) (lookupA_mem _ _ _ hlook)
          rw [hcon] at this
          exact absurd this (lt_irrefl _)
        exact ⟨fid0, f0, hent, by rw [hlookOld fid0 hne]; exact hlook, hoff⟩
      · intro q hq
        rcases mem_insertA _ _ _ _ hq with h1 | h1
        · subst h1
          exact Nat.lt_succ_self _
        · exact Nat.lt_succ_of_lt (hC q h1)
      · intro q hq x hx g hg
        by_cases hgn : g = fs.nextId
        · subst hgn
          rw [hlookNew]
          rfl
        · rw [hlookOld g hgn]
          rcases mem_insertA _ _ _ _ hq with h1 | h1
          · subst h1
            rcases mem_insertA _ _ _ _ hx with h2 | h2
            · subst h2
              exact absurd (EntryRef.file.inj hg).symm hgn
            · exact hD (did, d) (lookupA_mem _ _ _ hd) x h2 g hg
          · exact hD q h1 x hx g hg

theorem InvFull_createCoarse (fs : FS) (p : String) (flagExcl : Nat)
    (h : InvFull fs) : InvFull (createCoarse fs p flagExcl).2 := by
  unfold createCoarse
  cases hpar : get_parent_directory_node_of_given_path fs.dirs fs.rootId fs.cwdRef p with
  | error e => exact h
  | ok pref =>
    simp only []
    cases hlast : get_last_component_of_path p with
    | error e => exact h
    | ok last =>
      simp only []
      cases pref with
      | dir i => exact InvFull_create_new_file fs i last flagExcl h
      | file g => exact h
      | rootSentinel => exact h

theorem InvFull_openCoarse (fs : FS) (p : String) (fl : Nat) (h : InvFull fs) :
    InvFull (openCoarse fs p fl).2 := by
  unfold openCoarse
  cases hm : check_mode_exclusiveness fl with
  | false =>
    simp only [Bool.not_false, if_true]
    exact h
  | true =>
    simp only [Bool.not_true, Bool.false_eq_true, if_false]
    have hcont : ∀ fs1 : FS, InvFull fs1 →
        InvFull ((match get_node_of_given_path fs1.dirs fs1.rootId fs1.cwdRef p with
          | .error e => ((.error e : Except Err Nat), fs1)
          | .ok nref =>
            match nref with
            | .file fid =>
              ((.ok fs1.fdCount : Except Err Nat),
               { fs1 with
                 fds := insertA fs1.fds fs1.fdCount
                   { flag := withoutF fl O_CREAT, file_offset := 0, entry := .file fid }
                 fdCount := fs1.fdCount + 1 })
            | _ => ((.error .EISDIR : Except Err Nat), fs1)).2) := by
      intro fs1 h1
      cases hn2 : get_node_of_given_path fs1.dirs fs1.rootId fs1.cwdRef p with
      | error e => exact h1
      | ok nref =>
        simp only []
        cases nref with
        | dir j => exact h1
        | rootSentinel => exact h1
        | file fid =>
          simp only []
          obtain ⟨j, hj⟩ := h1.2.2.2.2
          have hcwd : ∀ g, fs1.cwdRef ≠ EntryRef.file g := by
            intro g hcon
            rw [hj] at hcon
            exact absurd hcon (by simp)
          obtain ⟨q, hq, x, hx, hxf⟩ :=
            get_node_ok_file_mem fs1.dirs fs1.rootId fs1.cwdRef p fid hcwd hn2
          have hsome : (lookupA fs1.files fid).isSome :=
            h1.2.2.2.1 q hq x hx fid hxf
          exact InvFull_insert_fd fs1 fid fs1.fdCount (withoutF fl O_CREAT) h1 hsome
    by_cases hcr : containsF fl O_CREAT = true
    · simp only [hcr, if_true]
      by_cases hp : fs.pool = 0
      · rw [if_pos hp]
        simp only []
        exact h
      · rw [if_neg hp]
        cases hcc : createCoarse { fs with pool := fs.pool - 1 } p (O_EXCL &&& fl) with
        | mk r fs1 =>
          have h1 : InvFull fs1 := by
            have hi := InvFull_createCoarse { fs with pool := fs.pool - 1 } p (O_EXCL &&& fl)
              (InvFull_pool fs (fs.pool - 1) h)
            rw [hcc] at hi
            exact hi
          cases r with
          | error e =>
            simp only []
            exact h1
          | ok u =>
            simp only []
            exact hcont fs1 h1
    · simp only [Bool.not_eq_true] at hcr
      simp only [hcr, Bool.false_eq_true, if_false]
      exact hcont fs h

/-! ## Invariant preservation: every public operation, every reachable state -/

theorem InvFull_applyOp (fs : FS) (op : Op) (h : InvFull fs) :
    InvFull (applyOp fs op) := by
  cases op with
  | opOpen p fl => exact InvFull_openFine fs p fl h
  | opOpenCoarse p fl => exact InvFull_openCoarse fs p fl h
  | opClose fd => exact InvFull_closeOp fs fd h
  | opUnlink p => exact InvFull_unlinkOp fs p h
  | opMkdir p => exact InvFull_mkdirOp fs p h
  | opRmdir p => exact InvFull_rmdirOp fs p h
  | opChdir p => exact InvFull_chdirOp fs p h
  | opRead fd b sz => exact InvFull_readOp fs fd b sz h
  | opWrite fd buf sz => exact InvFull_writeOp fs fd buf sz h
  | opSeek fd off fl => exact InvFull_seekOp fs fd off fl h

theorem InvFull_run (ops : List Op) : InvFull (run ops) := by
  unfold run
  have hgen : ∀ (l : List Op) (s : FS), InvFull s → InvFull (l.foldl applyOp s) := by
    intro l
    induction l with
    | nil => intro s hs; exact hs
    | cons a l2 ih =>
      intro s hs
      exact ih (applyOp s a) (InvFull_applyOp s a hs)
  exact hgen ops initFS InvFull_init

/-- C8: in every state reachable from the fresh filesystem by any sequence of
public operations (open in both the fine-grained and coarse-grained variant,
close, unlink, mkdir, rmdir, chdir, read, write, lseek), every file's size
satisfies `0 ≤ size ≤ FILE_MAX_SIZE`, and every open descriptor refers to a
live file of the file table and keeps `0 ≤ file_offset ≤ size` of that file
(the lower bounds are automatic over `Nat`). -/
theorem size_offset_invariant (ops : List Op) : SizeOffsetInv (run ops) := by
  obtain ⟨hA, hB, hC, hD, hE⟩ := InvFull_run ops
  exact ⟨fun q hq => (hA q hq).1, hB⟩

end MemFS
